import Mathlib

/-!
# start_tunnel.c: the `.env` loader and the `cloudflared` launcher

A shallow embedding of `src/start_tunnel.c`.

* A C string is the list of its characters before the terminating NUL.
* A `char *` into a NUL-terminated buffer is the suffix it points at.
* The process environment is the lookup function that `getenv` computes.
* The hidden save pointer of `strtok` is passed explicitly.
* `fopen`, `fgets`, `strtok`, `setenv`, `getenv` and `execvp` belong to the C
  library; they are modelled after their POSIX descriptions.
-/

set_option autoImplicit false

namespace StartTunnel

/-- The contents of a NUL-terminated C string (terminator not included). -/
abbrev Str := List Char

/-- The terminator `'\0'`. -/
def NUL : Char := Char.ofNat 0

/-- The newline character `'\n'`. -/
def NL : Char := Char.ofNat 10

/-- The tab character `'\t'`. -/
def TAB : Char := Char.ofNat 9

/-- The process environment, seen through `getenv`: `none` is the NULL result. -/
abbrev Env := Str → Option Str

/-- The libc lookup `getenv(name)`. -/
def getenv (env : Env) (name : Str) : Option Str := env name

/-- The libc call `setenv(name, value, overwrite)`. An empty name or a name that contains
`=` is rejected (EINVAL) and the environment is left as it was; the program never looks
at the return value. -/
def setenv (env : Env) (name value : Str) (overwrite : Bool) : Env :=
  if name = [] ∨ '=' ∈ name then env
  else if overwrite = false ∧ (env name).isSome then env
  else fun n => if n = name then some value else env n

/-- The environment in which nothing is set. -/
def emptyEnv : Env := fun _ => none

/-! ## trim_whitespace (lines 6-21) -/

/-- Line 11, `while (*str == ' ') str++;`: the result is the advanced pointer. -/
def skip_spaces : Str → Str
  | [] => []
  | c :: t => if c = ' ' then skip_spaces t else c :: t

/-- Line 15, `while (end > str && *end == ' ') end--;`. The string `s` starts at `str`,
and `e` is the signed offset `end - str`, which is `-1` for an empty string. Reading
the position of the terminator yields NUL. The first argument bounds the number of
iterations; `strlen(str)` of them are always enough (`scan_back_exit`). -/
def scan_back (s : Str) : Nat → Int → Int
  | 0, e => e
  | fuel + 1, e =>
    if 0 < e ∧ s.getD e.toNat NUL = ' ' then scan_back s fuel (e - 1) else e

/-- The function `trim_whitespace`: the returned pointer is the advanced `str`, and the
write `*(end + 1) = '\0'` cuts the string that starts there to `end + 1` characters. -/
def trim_whitespace (str : Str) : Str :=
  let s := skip_spaces str
  let e := scan_back s s.length ((s.length : Int) - 1)
  s.take (e + 1).toNat

/-! ## The C library routines used by load_env -/

/-- The characters `fgets` stores when it may store at most `n` of them: it stops after a
newline, after `n` characters, or at end of file. Returns them with the unread rest. -/
def fgets_read : Nat → List Char → List Char × List Char
  | 0, rest => ([], rest)
  | _ + 1, [] => ([], [])
  | n + 1, c :: rest =>
    if c = NL then ([c], rest)
    else ((c :: (fgets_read n rest).1), (fgets_read n rest).2)

/-- The libc call `fgets(line, size, file)` on the unread part of the file: `none` is the
NULL result at end of file, otherwise the bytes stored in the buffer (a NUL follows
them) and the unread rest. -/
def fgets (size : Nat) (file : List Char) : Option (List Char × List Char) :=
  match file with
  | [] => none
  | _ :: _ => some (fgets_read (size - 1) file)

/-- The C string held by a buffer: everything before the first NUL. A file may contain
NUL bytes, which `fgets` stores like any other byte. -/
def cstr (buf : List Char) : Str := buf.takeWhile (fun c => c ≠ NUL)

/-- The libc call `strtok` with its save pointer made explicit: `s` is the string that is
scanned (the first argument, or the save pointer when the first argument is NULL).
Leading delimiters are skipped; if nothing is left the result is NULL. Otherwise the
token runs up to the next delimiter, which is overwritten by NUL, and the save pointer
moves behind it (or stays on the terminator when the token reaches the end). -/
def strtok (s : Str) (delim : List Char) : Option Str × Str :=
  match s.dropWhile (fun c => delim.contains c) with
  | [] => (none, [])
  | c :: t =>
    (some ((c :: t).takeWhile (fun x => !delim.contains x)),
     ((c :: t).dropWhile (fun x => !delim.contains x)).drop 1)

/-! ## load_env (lines 24-51) -/

/-- Lines 36-47, the body of the reading loop for the string `line` that `fgets` left in
the buffer. -/
def loop_body (line : Str) (env : Env) : Env :=
  if line.getD 0 NUL = '#' ∨ line.getD 0 NUL = NL then env
  else
    match (strtok line ['=']).1, (strtok (strtok line ['=']).2 [NL]).1 with
    | some key, some value => setenv env (trim_whitespace key) (trim_whitespace value) true
    | _, _ => env

/-- Lines 34-48, `while (fgets(line, sizeof(line), file)) ...` with `char line[256]`.
The first argument bounds the number of iterations. -/
def load_loop : Nat → List Char → Env → Env
  | 0, _, env => env
  | fuel + 1, file, env =>
    match fgets 256 file with
    | none => env
    | some (buf, rest) => load_loop fuel rest (loop_body (cstr buf) env)

/-- The reading loop on a whole file. Every iteration consumes at least one byte, so
`length + 1` iterations reach the end of the file (`load_loop_fuel`). -/
def load_file (content : List Char) (env : Env) : Env :=
  load_loop (content.length + 1) content env

/-- The value of `EXIT_FAILURE` in `stdlib.h`. -/
def EXIT_FAILURE : Nat := 1

/-- The function `load_env`. The argument `file` is what `fopen(filename, "r")` finds:
`none` when the file cannot be opened, otherwise its contents. The error result is the
status passed to `exit`. -/
def load_env (file : Option (List Char)) (env : Env) : Except Nat Env :=
  match file with
  | none => Except.error EXIT_FAILURE
  | some content => Except.ok (load_file content env)

/-! ## main (lines 53-91) -/

/-- The arguments of one `execvp(file, argv)` call together with the environment the
new program image would inherit. -/
structure ExecCall where
  /-- The program name that is searched on the path. -/
  file : Str
  /-- The argument vector, without the closing NULL. -/
  argv : List Str
  /-- The environment at the time of the call. -/
  env : Env

/-- How a run of the program ends. -/
inductive Outcome where
  /-- The program ended by itself with this exit status, in this environment, without
  ever calling `execvp`. -/
  | exited (status : Nat) (env : Env)
  /-- The program called `execvp` and the call replaced the process image. -/
  | replaced (call : ExecCall)
  /-- The program called `execvp`, the call returned, and the program ended with this
  exit status. -/
  | exec_failed (call : ExecCall) (status : Nat)

/-- The `execvp` call a run made, if it made one. -/
def Outcome.call : Outcome → Option ExecCall
  | Outcome.exited _ _ => none
  | Outcome.replaced c => some c
  | Outcome.exec_failed c _ => some c

/-- The exit status of a run that ended by itself; `none` when the process image was
replaced. -/
def Outcome.status : Outcome → Option Nat
  | Outcome.exited st _ => some st
  | Outcome.replaced _ => none
  | Outcome.exec_failed _ st => some st

/-- Lines 57-90 of `main`, everything after the call of `load_env`. The argument
`execvp` tells whether the library call succeeds in replacing the process image. -/
def launch (execvp : ExecCall → Bool) (env : Env) : Outcome :=
  match getenv env "ORIGIN_CERT".toList, getenv env "TUNNEL_ID".toList,
        getenv env "CONFIG".toList, getenv env "LOG_LEVEL".toList with
  | some origin_cert, some tunnel_id, some config, some log_level =>
    let env1 := setenv env "ORIGIN_CERT".toList origin_cert true
    let args : List Str :=
      ["cloudflared".toList, "tunnel".toList, "--config".toList, config,
       "--loglevel".toList, log_level, "run".toList, tunnel_id]
    let call : ExecCall := ExecCall.mk (args.getD 0 []) args env1
    if execvp call then Outcome.replaced call
    else Outcome.exec_failed call EXIT_FAILURE
  | _, _, _, _ => Outcome.exited EXIT_FAILURE env

/-- The function `main`. `dotenv` is what `fopen(".env", "r")` finds, `env0` is the
inherited environment. -/
def main (dotenv : Option (List Char)) (execvp : ExecCall → Bool) (env0 : Env) : Outcome :=
  match load_env dotenv env0 with
  | Except.error status => Outcome.exited status env0
  | Except.ok env => launch execvp env

/-! ## The words of the specification

The definitions below follow the text of the specification, not the code; the theorems
compare them with the code. -/

/-- Specification, 4.1: a string "with its surrounding spaces stripped", that is without
its maximal prefix of spaces and its maximal suffix of spaces. -/
def strip_spaces (s : Str) : Str :=
  (s.dropWhile (fun c => c = ' ')).rdropWhile (fun c => c = ' ')

/-- Specification, 4.1, "split on the first `=`": the key part is the text before the
first `=` of the line. -/
def key_part (line : Str) : Str := line.takeWhile (fun c => c ≠ '=')

/-- Specification, 4.1: the value part is the text after the first `=`, "up to (but not
including) a trailing newline". -/
def value_part (line : Str) : Str :=
  ((line.dropWhile (fun c => c ≠ '=')).drop 1).takeWhile (fun c => c ≠ NL)

/-- Specification, 4.1: what a line means. A comment or blank line, and a line whose
split "produces no key or no value", is skipped (`none`); every other line assigns the
stripped value part to the stripped key part. -/
def spec_entry (line : Str) : Option (Str × Str) :=
  if line.head? = some '#' ∨ line.head? = some NL then none
  else if key_part line = [] ∨ value_part line = [] then none
  else some (strip_spaces (key_part line), strip_spaces (value_part line))

/-- Specification, 4.2 step 3: none of the four required variables is absent. -/
def all_required_set (env : Env) : Prop :=
  (getenv env "ORIGIN_CERT".toList).isSome = true ∧
  (getenv env "TUNNEL_ID".toList).isSome = true ∧
  (getenv env "CONFIG".toList).isSome = true ∧
  (getenv env "LOG_LEVEL".toList).isSome = true

instance (env : Env) : Decidable (all_required_set env) := by
  unfold all_required_set
  exact inferInstance

/-! ## The logical lines of a file -/

/-- The buffers that the successive `fgets(line, 256, file)` calls of the reading loop
deliver, in order. The first argument bounds their number. -/
def read_chunks : Nat → List Char → List (List Char)
  | 0, _ => []
  | fuel + 1, file =>
    match fgets 256 file with
    | none => []
    | some (buf, rest) => buf :: read_chunks fuel rest

/-- The buffers delivered for a whole file. -/
def file_chunks (content : List Char) : List (List Char) :=
  read_chunks (content.length + 1) content

/-- A position at which a line starts: the text before it is empty or ends with a
newline. -/
def LineBoundary (pre : List Char) : Prop := pre = [] ∨ pre.getLast? = some NL

instance (pre : List Char) : Decidable (LineBoundary pre) := by
  unfold LineBoundary
  exact inferInstance

/-! ## Files used as examples -/

/-- A file of one line: `#`, then 254 times `x`, then `A=1` and a newline. -/
def long_comment_file : List Char := '#' :: List.replicate 254 'x' ++ "A=1\n".toList

/-- The line made of 255 times `x` followed by `A=3` and a newline. -/
def long_entry_line : List Char := List.replicate 255 'x' ++ "A=3\n".toList

/-- The contents of a `.env` file that sets the four required variables. -/
def example_dotenv : List Char :=
  "ORIGIN_CERT=/etc/cert.pem\nCONFIG=/etc/c.yml\nLOG_LEVEL=debug\nTUNNEL_ID=abc123\n".toList

/-- The environment in which every variable is set to the empty string. -/
def allEmptyEnv : Env := fun _ => some []

/-- The key made of 255 times `K`. -/
def long_key : Str := List.replicate 255 'K'

/-- The text of the line `KEY=VALUE` followed by a newline. -/
def entry_line (key value : Str) : List Char := key ++ '=' :: value ++ [NL]

/-- The environment in which only `name` is set, to `value`. -/
def singleEnv (name value : Str) : Env := fun n => if n = name then some value else none

/-! ## What the code reads, writes and passes on

The same code as above, returning what the property at hand is about: the positions
that `trim_whitespace` touches, and the arguments of the `setenv` calls of the reading
loop. -/

/-- Line 11, `while (*str == ' ') str++;`: how far the pointer is advanced, that is the
offset of the returned pointer from the argument. -/
def skip_count : Str → Nat
  | [] => 0
  | c :: t => if c = ' ' then skip_count t + 1 else 0

/-- Line 15, `while (end > str && *end == ' ') end--;`: the offsets from `str` at which
`*end` is read, in order. The test `end > str` comes first and `&&` evaluates its right
side only when that test holds. Arguments as for `scan_back`. -/
def scan_back_reads (s : Str) : Nat → Int → List Int
  | 0, _ => []
  | fuel + 1, e =>
    if 0 < e then
      e :: (if s.getD e.toNat NUL = ' ' then scan_back_reads s fuel (e - 1) else [])
    else []

/-- Line 14, `end = str + strlen(str) - 1;`: the first value of `end`, as an offset from
the argument of `trim_whitespace`. -/
def trim_end_init (str : Str) : Int :=
  (skip_count str : Int) + ((skip_spaces str).length : Int) - 1

/-- The offsets from the argument of `trim_whitespace` at which the scan of line 15
reads a character. -/
def trim_scan_reads (str : Str) : List Int :=
  (scan_back_reads (skip_spaces str) (skip_spaces str).length
    (((skip_spaces str).length : Int) - 1)).map (fun e => (skip_count str : Int) + e)

/-- Line 18, `*(end + 1) = '\0';`: the offset from the argument of `trim_whitespace` at
which the terminator is written. -/
def trim_write_pos (str : Str) : Int :=
  (skip_count str : Int)
    + (scan_back (skip_spaces str) (skip_spaces str).length
        (((skip_spaces str).length : Int) - 1) + 1)

/-- Lines 36-47: the arguments `(key, value)` of the `setenv` call that the body of the
reading loop makes for the string `line`; `none` when it makes no call. -/
def loop_call (line : Str) : Option (Str × Str) :=
  if line.getD 0 NUL = '#' ∨ line.getD 0 NUL = NL then none
  else
    match (strtok line ['=']).1, (strtok (strtok line ['=']).2 [NL]).1 with
    | some key, some value => some (trim_whitespace key, trim_whitespace value)
    | _, _ => none

/-- The arguments of all `setenv` calls that `load_env` makes for a file, in order. -/
def load_calls (content : List Char) : List (Str × Str) :=
  (file_chunks content).filterMap (fun buf => loop_call (cstr buf))

/-- A line of 520 times `x` and a newline. -/
def long_line : List Char := List.replicate 520 'x' ++ [NL]

/-- The contents of a `.env` file that gives each required variable a value of spaces
only. -/
def blank_values_dotenv : List Char :=
  "ORIGIN_CERT= \nTUNNEL_ID=  \nCONFIG= \nLOG_LEVEL=   \n".toList

/-! ## trim_whitespace -/

theorem skip_spaces_eq (s : Str) : skip_spaces s = s.dropWhile (fun c => c = ' ') := by
  induction s with
  | nil => rfl
  | cons c t ih =>
    by_cases h : c = ' '
    · simp [skip_spaces, h, ih]
    · simp [skip_spaces, h]

theorem skip_spaces_head (s : Str) : (skip_spaces s).head? ≠ some ' ' := by
  induction s with
  | nil => simp [skip_spaces]
  | cons c t ih =>
    by_cases h : c = ' '
    · simpa [skip_spaces, h] using ih
    · simp [skip_spaces, h]

theorem scan_back_take (s : Str) (hs : s.head? ≠ some ' ') :
    ∀ (fuel n : Nat), n ≤ s.length → n ≤ fuel →
      s.take (scan_back s fuel ((n : Int) - 1) + 1).toNat
        = (s.take n).rdropWhile (fun c => c = ' ') := by
  intro fuel
  induction fuel with
  | zero =>
    intro n _ hn
    obtain rfl : n = 0 := by omega
    simp [scan_back]
  | succ fuel ih =>
    intro n hlen hn
    unfold scan_back
    split_ifs with hc
    · obtain ⟨hpos, hsp⟩ := hc
      have hn2 : 2 ≤ n := by omega
      obtain ⟨m, rfl⟩ : ∃ m, n = m + 1 := ⟨n - 1, by omega⟩
      have hm : ((m + 1 : Nat) : Int) - 1 = (m : Int) := by omega
      rw [hm] at hsp ⊢
      have := ih m (by omega) (by omega)
      rw [this]
      have hlt : m < s.length := by omega
      simp only [Int.toNat_ofNat] at hsp
      rw [List.getD_eq_getElem _ _ hlt] at hsp
      rw [List.take_succ, List.getElem?_eq_getElem hlt]
      exact (List.rdropWhile_concat_pos _ _ _ (by simpa using hsp)).symm
    · have hr : (((n : Int) - 1) + 1).toNat = n := by omega
      rw [hr]
      rcases Nat.eq_zero_or_pos n with rfl | hpos
      · simp
      · obtain ⟨m, rfl⟩ : ∃ m, n = m + 1 := ⟨n - 1, by omega⟩
        have hlt : m < s.length := by omega
        have hne : s[m] ≠ ' ' := by
          rcases Nat.eq_zero_or_pos m with rfl | hm
          · intro h0
            apply hs
            cases s with
            | nil => simp at hlt
            | cons a t => simpa using h0
          · intro hsp
            apply hc
            refine ⟨by omega, ?_⟩
            have hm1 : (((m + 1 : Nat) : Int) - 1).toNat = m := by omega
            rw [hm1, List.getD_eq_getElem _ _ hlt]
            exact hsp
        rw [List.take_succ, List.getElem?_eq_getElem hlt]
        exact (List.rdropWhile_concat_neg _ _ _ (by simpa using hne)).symm

theorem trim_whitespace_eq_strip (s : Str) : trim_whitespace s = strip_spaces s := by
  unfold trim_whitespace strip_spaces
  simp only
  rw [scan_back_take _ (skip_spaces_head s) _ _ (le_refl _) (le_refl _)]
  rw [List.take_length, skip_spaces_eq]

theorem scan_back_exit (s : Str) :
    ∀ (fuel : Nat) (e : Int), e ≤ fuel →
      ¬ (0 < scan_back s fuel e ∧ s.getD (scan_back s fuel e).toNat NUL = ' ') := by
  intro fuel
  induction fuel with
  | zero =>
    intro e he
    simp only [scan_back]
    intro h
    have := h.1
    simp at he
    omega
  | succ fuel ih =>
    intro e he
    unfold scan_back
    split_ifs with hc
    · exact ih (e - 1) (by push_cast at he; omega)
    · exact hc

/-- Enough fuel: in `trim_whitespace` the scan ends because its loop condition fails,
not because the bound on the iterations is reached. -/
theorem trim_whitespace_scan_exit (str : Str) :
    ¬ (0 < scan_back (skip_spaces str) (skip_spaces str).length
            (((skip_spaces str).length : Int) - 1) ∧
        (skip_spaces str).getD
          (scan_back (skip_spaces str) (skip_spaces str).length
            (((skip_spaces str).length : Int) - 1)).toNat NUL = ' ') :=
  scan_back_exit _ _ _ (by omega)

theorem rdropWhile_append_rtakeWhile (p : Char → Bool) (l : List Char) :
    l.rdropWhile p ++ l.rtakeWhile p = l := by
  unfold List.rdropWhile List.rtakeWhile
  rw [← List.reverse_append, List.takeWhile_append_dropWhile, List.reverse_reverse]

theorem all_spaces_eq_replicate (l : List Char) (h : ∀ c ∈ l, c = ' ') :
    l = List.replicate l.length ' ' :=
  List.eq_replicate_length.mpr h

theorem strip_spaces_decomp (s : Str) :
    ∃ n m, s = List.replicate n ' ' ++ strip_spaces s ++ List.replicate m ' ' := by
  refine ⟨(s.takeWhile (fun c => c = ' ')).length,
    ((s.dropWhile (fun c => c = ' ')).rtakeWhile (fun c => c = ' ')).length, ?_⟩
  rw [← all_spaces_eq_replicate, ← all_spaces_eq_replicate]
  · unfold strip_spaces
    rw [List.append_assoc, rdropWhile_append_rtakeWhile, List.takeWhile_append_dropWhile]
  · intro c hc
    simpa using List.mem_rtakeWhile_imp hc
  · intro c hc
    simpa using List.mem_takeWhile_imp hc

theorem strip_spaces_head (s : Str) : (strip_spaces s).head? ≠ some ' ' := by
  unfold strip_spaces
  have hpre := List.rdropWhile_prefix (fun c => decide (c = ' ')) (s.dropWhile (fun c => c = ' '))
  have hd := skip_spaces_head s
  rw [skip_spaces_eq] at hd
  obtain ⟨t, ht⟩ := hpre
  intro h
  apply hd
  rw [← ht]
  cases hr : List.rdropWhile (fun c => decide (c = ' ')) (s.dropWhile (fun c => c = ' ')) with
  | nil => rw [hr] at h; simp at h
  | cons a r => rw [hr] at h; simpa using h

theorem strip_spaces_getLast (s : Str) : (strip_spaces s).getLast? ≠ some ' ' := by
  unfold strip_spaces
  intro h
  have hne : List.rdropWhile (fun c => decide (c = ' ')) (s.dropWhile (fun c => c = ' ')) ≠ [] := by
    intro h0
    rw [h0] at h
    simp at h
  have := List.rdropWhile_last_not (fun c => decide (c = ' ')) _ hne
  rw [List.getLast?_eq_getLast _ hne] at h
  simp only [Option.some.injEq] at h
  simp [h] at this

theorem strip_spaces_fixed (s : Str) (h1 : s.head? ≠ some ' ') (h2 : s.getLast? ≠ some ' ') :
    strip_spaces s = s := by
  unfold strip_spaces
  have hd : s.dropWhile (fun c => decide (c = ' ')) = s := by
    cases s with
    | nil => rfl
    | cons a t =>
      have : a ≠ ' ' := by simpa using h1
      simp [List.dropWhile, this]
  rw [hd, List.rdropWhile_eq_self_iff]
  intro hl
  rw [List.getLast?_eq_getLast _ hl] at h2
  simpa using h2

/-- C10. `trim_whitespace` returns its argument without the maximal run of spaces at
the front and the maximal run of spaces at the back: the argument is some spaces, the
result, some spaces; the result neither begins nor ends with a space; a string that
neither begins nor ends with a space comes back unchanged, and so does every string
enclosed in tabs. -/
theorem trim_whitespace_strips_only_spaces (s : Str) :
    trim_whitespace s = strip_spaces s ∧
    (∃ n m, s = List.replicate n ' ' ++ trim_whitespace s ++ List.replicate m ' ') ∧
    (trim_whitespace s).head? ≠ some ' ' ∧
    (trim_whitespace s).getLast? ≠ some ' ' ∧
    (s.head? ≠ some ' ' ∧ s.getLast? ≠ some ' ' → trim_whitespace s = s) ∧
    trim_whitespace (TAB :: (s ++ [TAB])) = TAB :: (s ++ [TAB]) := by
  refine ⟨trim_whitespace_eq_strip s, ?_, ?_, ?_, ?_, ?_⟩
  · rw [trim_whitespace_eq_strip]; exact strip_spaces_decomp s
  · rw [trim_whitespace_eq_strip]; exact strip_spaces_head s
  · rw [trim_whitespace_eq_strip]; exact strip_spaces_getLast s
  · rintro ⟨h1, h2⟩
    rw [trim_whitespace_eq_strip]; exact strip_spaces_fixed s h1 h2
  · rw [trim_whitespace_eq_strip]
    apply strip_spaces_fixed
    · simp [TAB]
    · rw [← List.cons_append, List.getLast?_append]
      simp [TAB]

/-! ## Reading the file -/

theorem fgets_read_append (n : Nat) (l : List Char) :
    (fgets_read n l).1 ++ (fgets_read n l).2 = l := by
  induction n generalizing l with
  | zero => simp [fgets_read]
  | succ n ih =>
    cases l with
    | nil => simp [fgets_read]
    | cons c t =>
      by_cases h : c = NL
      · simp [fgets_read, h]
      · simp [fgets_read, h, ih t]

theorem fgets_read_ne_nil (n : Nat) (c : Char) (t : List Char) :
    (fgets_read (n + 1) (c :: t)).1 ≠ [] := by
  by_cases h : c = NL <;> simp [fgets_read, h]

theorem fgets_read_length_le (n : Nat) (l : List Char) :
    (fgets_read n l).1.length ≤ n := by
  induction n generalizing l with
  | zero => simp [fgets_read]
  | succ n ih =>
    cases l with
    | nil => simp [fgets_read]
    | cons c t =>
      by_cases h : c = NL
      · simp [fgets_read, h]
      · simpa [fgets_read, h] using ih t

theorem fgets_read_rest_length (c : Char) (t : List Char) :
    (fgets_read 255 (c :: t)).2.length < (c :: t).length := by
  have h1 := fgets_read_append 255 (c :: t)
  have h2 := fgets_read_ne_nil 254 c t
  have h3 := congrArg List.length h1
  rw [List.length_append] at h3
  have h4 : 0 < (fgets_read 255 (c :: t)).1.length := List.length_pos.mpr h2
  omega

theorem read_chunks_cons (fuel : Nat) (c : Char) (t : List Char) :
    read_chunks (fuel + 1) (c :: t)
      = (fgets_read 255 (c :: t)).1 :: read_chunks fuel (fgets_read 255 (c :: t)).2 := rfl

theorem load_loop_cons (fuel : Nat) (c : Char) (t : List Char) (env : Env) :
    load_loop (fuel + 1) (c :: t) env
      = load_loop fuel (fgets_read 255 (c :: t)).2
          (loop_body (cstr (fgets_read 255 (c :: t)).1) env) := rfl

theorem read_chunks_fuel (f1 : Nat) :
    ∀ (f2 : Nat) (file : List Char), file.length < f1 → file.length < f2 →
      read_chunks f1 file = read_chunks f2 file := by
  induction f1 with
  | zero => intro f2 file h1; omega
  | succ f1 ih =>
    intro f2 file h1 h2
    obtain ⟨g2, rfl⟩ : ∃ g, f2 = g + 1 := ⟨f2 - 1, by omega⟩
    cases file with
    | nil => simp [read_chunks, fgets]
    | cons c t =>
      have hr := fgets_read_rest_length c t
      rw [read_chunks_cons, read_chunks_cons]
      congr 1
      apply ih
      · simp only [List.length_cons] at h1 hr; omega
      · simp only [List.length_cons] at h2 hr; omega

theorem load_loop_eq_foldl (fuel : Nat) :
    ∀ (file : List Char) (env : Env),
      load_loop fuel file env
        = (read_chunks fuel file).foldl (fun e buf => loop_body (cstr buf) e) env := by
  induction fuel with
  | zero => intro file env; rfl
  | succ fuel ih =>
    intro file env
    cases file with
    | nil => simp [load_loop, read_chunks, fgets]
    | cons c t => rw [load_loop_cons, read_chunks_cons, ih]; rfl

theorem load_file_eq_foldl (file : List Char) (env : Env) :
    load_file file env
      = (file_chunks file).foldl (fun e buf => loop_body (cstr buf) e) env :=
  load_loop_eq_foldl _ _ _

theorem file_chunks_nil : file_chunks [] = [] := rfl

theorem file_chunks_cons (c : Char) (t : List Char) :
    file_chunks (c :: t)
      = (fgets_read 255 (c :: t)).1 :: file_chunks (fgets_read 255 (c :: t)).2 := by
  have hr := fgets_read_rest_length c t
  unfold file_chunks
  rw [List.length_cons, read_chunks_cons]
  congr 1
  apply read_chunks_fuel
  · simp only [List.length_cons] at hr; omega
  · omega

/-- Enough fuel: the reading loop stops because `fgets` reports the end of the file,
whatever larger bound is given. -/
theorem load_loop_fuel (fuel : Nat) (file : List Char) (env : Env)
    (h : file.length < fuel) : load_loop fuel file env = load_file file env := by
  unfold load_file
  rw [load_loop_eq_foldl, load_loop_eq_foldl,
    read_chunks_fuel fuel (file.length + 1) file h (by omega)]

theorem fgets_read_append_left (n : Nat) (a b : List Char) (ha : a.getLast? = some NL) :
    fgets_read n (a ++ b) = ((fgets_read n a).1, (fgets_read n a).2 ++ b) := by
  induction n generalizing a with
  | zero => simp [fgets_read]
  | succ n ih =>
    cases a with
    | nil => simp at ha
    | cons c t =>
      by_cases h : c = NL
      · simp [fgets_read, h]
      · have ht : t.getLast? = some NL := by
          cases t with
          | nil => simp at ha; exact absurd ha h
          | cons d u => simpa [List.getLast?_cons_cons] using ha
        simp [fgets_read, h, ih t ht]

theorem lineBoundary_suffix (a s : List Char) (ha : LineBoundary a) (hs : s <:+ a) :
    LineBoundary s := by
  rcases ha with rfl | ha
  · left; simpa using hs
  · by_cases h : s = []
    · left; exact h
    · right
      obtain ⟨p, rfl⟩ := hs
      rw [List.getLast?_append_of_ne_nil _ h] at ha
      exact ha

theorem fgets_read_rest_boundary (n : Nat) (a : List Char) (ha : LineBoundary a) :
    LineBoundary (fgets_read n a).2 :=
  lineBoundary_suffix a _ ha ⟨(fgets_read n a).1, fgets_read_append n a⟩

theorem file_chunks_append_aux (f : Nat) :
    ∀ (a b : List Char), a.length < f → LineBoundary a →
      file_chunks (a ++ b) = file_chunks a ++ file_chunks b := by
  induction f with
  | zero => intro a b h; omega
  | succ f ih =>
    intro a b hlen ha
    cases a with
    | nil => simp [file_chunks_nil]
    | cons c t =>
      have hl : (c :: t).getLast? = some NL := by
        rcases ha with h | h
        · simp at h
        · exact h
      have hr := fgets_read_rest_length c t
      rw [List.cons_append, file_chunks_cons, file_chunks_cons, ← List.cons_append,
        fgets_read_append_left 255 (c :: t) b hl]
      simp only [List.cons_append, List.cons.injEq, true_and]
      apply ih
      · simp only [List.length_cons] at hlen hr; omega
      · exact fgets_read_rest_boundary 255 _ ha

theorem file_chunks_append (a b : List Char) (ha : LineBoundary a) :
    file_chunks (a ++ b) = file_chunks a ++ file_chunks b :=
  file_chunks_append_aux (a.length + 1) a b (by omega) ha

theorem load_file_append (a b : List Char) (env : Env) (ha : LineBoundary a) :
    load_file (a ++ b) env = load_file b (load_file a env) := by
  simp only [load_file_eq_foldl, file_chunks_append a b ha, List.foldl_append]

theorem fgets_read_line (n : Nat) (body rest : List Char) (hb : NL ∉ body)
    (hlen : body.length < n) :
    fgets_read n (body ++ NL :: rest) = (body ++ [NL], rest) := by
  induction body generalizing n with
  | nil =>
    obtain ⟨m, rfl⟩ : ∃ m, n = m + 1 := ⟨n - 1, by simp at hlen; omega⟩
    simp [fgets_read]
  | cons c t ih =>
    obtain ⟨m, rfl⟩ : ∃ m, n = m + 1 := ⟨n - 1, by simp at hlen; omega⟩
    have hc : c ≠ NL := fun h => hb (by simp [h])
    have ht : NL ∉ t := fun h => hb (by simp [h])
    simp only [List.length_cons] at hlen
    simp [fgets_read, hc, ih m ht (by omega)]

theorem fgets_read_last (n : Nat) (body : List Char) (hb : NL ∉ body)
    (hlen : body.length ≤ n) : fgets_read n body = (body, []) := by
  induction body generalizing n with
  | nil => cases n <;> simp [fgets_read]
  | cons c t ih =>
    obtain ⟨m, rfl⟩ : ∃ m, n = m + 1 := ⟨n - 1, by simp at hlen; omega⟩
    have hc : c ≠ NL := fun h => hb (by simp [h])
    have ht : NL ∉ t := fun h => hb (by simp [h])
    simp only [List.length_cons] at hlen
    simp [fgets_read, hc, ih m ht (by omega)]

theorem file_chunks_line (body : List Char) (hb : NL ∉ body) (hlen : body.length + 1 ≤ 255) :
    file_chunks (body ++ [NL]) = [body ++ [NL]] := by
  cases hbody : body ++ [NL] with
  | nil => simp at hbody
  | cons c t =>
    rw [file_chunks_cons, ← hbody, fgets_read_line 255 body [] hb (by omega)]
    simp [file_chunks_nil]

theorem file_chunks_last (body : List Char) (hb : NL ∉ body) (hne : body ≠ [])
    (hlen : body.length ≤ 255) : file_chunks body = [body] := by
  cases body with
  | nil => exact absurd rfl hne
  | cons c t =>
    rw [file_chunks_cons, fgets_read_last 255 (c :: t) hb hlen]
    simp [file_chunks_nil]

theorem file_chunks_segment_aux (f : Nat) :
    ∀ (file d : List Char), file.length < f → d ∈ file_chunks file → d <:+: file := by
  induction f with
  | zero => intro file d h; omega
  | succ f ih =>
    intro file d hlen hd
    cases file with
    | nil => simp [file_chunks_nil] at hd
    | cons c t =>
      rw [file_chunks_cons] at hd
      have happ := fgets_read_append 255 (c :: t)
      have hr := fgets_read_rest_length c t
      rcases List.mem_cons.mp hd with h | h
      · rw [h]
        exact (List.IsPrefix.isInfix ⟨_, happ⟩)
      · have := ih _ d (by simp only [List.length_cons] at hlen hr; omega) h
        exact this.trans (List.IsSuffix.isInfix ⟨_, happ⟩)

theorem file_chunks_segment (file d : List Char) (hd : d ∈ file_chunks file) : d <:+: file :=
  file_chunks_segment_aux (file.length + 1) file d (by omega) hd

theorem fgets_read_shape (n : Nat) (l : List Char) : NL ∉ (fgets_read n l).1.dropLast := by
  induction n generalizing l with
  | zero => simp [fgets_read]
  | succ n ih =>
    cases l with
    | nil => simp [fgets_read]
    | cons c t =>
      by_cases h : c = NL
      · simp [fgets_read, h]
      · simp only [fgets_read, h, if_false]
        have := ih t
        cases hr : (fgets_read n t).1 with
        | nil => simp
        | cons d u =>
          rw [hr] at this
          rw [List.dropLast_cons₂]
          simp only [List.mem_cons, not_or]
          exact ⟨fun hh => h hh.symm, this⟩

theorem file_chunks_shape_aux (f : Nat) :
    ∀ (file d : List Char), file.length < f → d ∈ file_chunks file →
      d ≠ [] ∧ d.length ≤ 255 ∧ NL ∉ d.dropLast := by
  induction f with
  | zero => intro file d h; omega
  | succ f ih =>
    intro file d hlen hd
    cases file with
    | nil => simp [file_chunks_nil] at hd
    | cons c t =>
      rw [file_chunks_cons] at hd
      have hr := fgets_read_rest_length c t
      rcases List.mem_cons.mp hd with h | h
      · rw [h]
        exact ⟨fgets_read_ne_nil 254 c t, fgets_read_length_le 255 _, fgets_read_shape 255 _⟩
      · exact ih _ d (by simp only [List.length_cons] at hlen hr; omega) h

theorem file_chunks_shape (file d : List Char) (hd : d ∈ file_chunks file) :
    d ≠ [] ∧ d.length ≤ 255 ∧ NL ∉ d.dropLast :=
  file_chunks_shape_aux (file.length + 1) file d (by omega) hd

/-! ## One line -/

theorem getD_zero_eq (line : Str) (c : Char) (hc : c ≠ NUL) :
    line.getD 0 NUL = c ↔ line.head? = some c := by
  cases line with
  | nil => simp [List.getD]; exact fun h => hc h.symm
  | cons a t => simp [List.getD]

theorem strtok_key (line : Str) (hk : key_part line ≠ []) :
    strtok line ['='] = (some (key_part line), (line.dropWhile (fun c => c ≠ '=')).drop 1) := by
  cases line with
  | nil => simp [key_part] at hk
  | cons a t =>
    have ha : a ≠ '=' := by
      intro h
      apply hk
      simp [key_part, List.takeWhile, h]
    have h1 : (a :: t).dropWhile (fun c => ['='].contains c) = a :: t := by
      simp [List.dropWhile, ha]
    unfold strtok
    rw [h1]
    simp only [key_part]
    have hf : (fun x => !(['='].contains x)) = (fun c : Char => decide (c ≠ '=')) := by
      funext x
      simp
    rw [hf]

theorem not_mem_dropLast_suffix (line s : List Char) (hs : s <:+ line)
    (h : NL ∉ line.dropLast) : NL ∉ s.dropLast := by
  obtain ⟨p, rfl⟩ := hs
  by_cases hnil : s = []
  · simp [hnil]
  · rw [List.dropLast_append_of_ne_nil _ hnil] at h
    exact fun hm => h (List.mem_append_right _ hm)

theorem not_mem_dropLast_initial (line s : List Char) (hs : s <+: line)
    (h : NL ∉ line.dropLast) : NL ∉ s.dropLast := by
  intro hm
  apply h
  have h1 : s.dropLast <+: line.dropLast := by
    obtain ⟨q, rfl⟩ := hs
    by_cases hq : q = []
    · simp [hq]
    · rw [List.dropLast_append_of_ne_nil _ hq]
      exact (List.dropLast_prefix s).trans (List.prefix_append _ _)
  exact h1.subset hm

theorem strtok_value (s : Str) (h : NL ∉ s.dropLast) :
    (strtok s [NL]).1
      = if s.takeWhile (fun c => c ≠ NL) = [] then none
        else some (s.takeWhile (fun c => c ≠ NL)) := by
  have hf : (fun x => !([NL].contains x)) = (fun c : Char => decide (c ≠ NL)) := by
    funext x
    simp
  cases s with
  | nil => simp [strtok]
  | cons a t =>
    by_cases ha : a = NL
    · have ht : t = [] := by
        cases t with
        | nil => rfl
        | cons b u =>
          exfalso
          apply h
          rw [List.dropLast_cons₂, ha]
          exact List.mem_cons_self _ _
      simp [strtok, ha, ht, List.dropWhile, List.takeWhile]
    · have h1 : (a :: t).dropWhile (fun c => [NL].contains c) = a :: t := by
        simp [List.dropWhile, ha]
      unfold strtok
      rw [h1]
      simp only [hf]
      have : (a :: t).takeWhile (fun c => decide (c ≠ NL)) ≠ [] := by
        simp [List.takeWhile, ha]
      rw [if_neg this]

theorem loop_body_eq_spec (line : Str) (env : Env) (hline : NL ∉ line.dropLast)
    (hhead : line.head? ≠ some '=') :
    loop_body line env
      = match spec_entry line with
        | none => env
        | some (k, v) => setenv env k v true := by
  unfold loop_body spec_entry
  simp only [getD_zero_eq line '#' (by decide), getD_zero_eq line NL (by decide)]
  by_cases hskip : line.head? = some '#' ∨ line.head? = some NL
  · rw [if_pos hskip, if_pos hskip]
  · rw [if_neg hskip, if_neg hskip]
    by_cases hk : key_part line = []
    · have hnil : line = [] := by
        cases line with
        | nil => rfl
        | cons a t =>
          exfalso
          apply hhead
          by_cases ha : a = '='
          · simp [ha]
          · simp [key_part, List.takeWhile, ha] at hk
      subst hnil
      simp [strtok, key_part]
    · rw [strtok_key line hk]
      simp only
      have hsuf : ((line.dropWhile (fun c => c ≠ '=')).drop 1) <:+ line :=
        (List.drop_suffix _ _).trans (List.dropWhile_suffix _)
      rw [strtok_value _ (not_mem_dropLast_suffix line _ hsuf hline)]
      by_cases hv : value_part line = []
      · have hv2 := hv
        unfold value_part at hv2
        rw [if_pos hv2, if_pos (Or.inr hv)]
      · have hv2 := hv
        unfold value_part at hv2
        rw [if_neg hv2, if_neg (by simp [hk, hv])]
        simp only [trim_whitespace_eq_strip, value_part]

/-! ## The environment -/

theorem setenv_same (env : Env) (name value : Str) (h1 : name ≠ []) (h2 : '=' ∉ name) :
    setenv env name value true name = some value := by
  simp [setenv, h1, h2]

theorem setenv_other (env : Env) (name value n : Str) (ow : Bool) (h : n ≠ name) :
    setenv env name value ow n = env n := by
  unfold setenv
  split_ifs <;> simp [h]

theorem setenv_empty_name (env : Env) (value : Str) (ow : Bool) :
    setenv env [] value ow = env := by
  simp [setenv]

theorem setenv_isSome (env : Env) (name value n : Str) (ow : Bool)
    (h : (env n).isSome = true) : (setenv env name value ow n).isSome = true := by
  unfold setenv
  split_ifs with h1 h2
  · exact h
  · exact h
  · by_cases hn : n = name
    · simp [hn]
    · simpa [hn] using h

theorem strip_spaces_segment (s : Str) : strip_spaces s <:+: s :=
  (List.rdropWhile_prefix _ _).isInfix.trans (List.dropWhile_suffix _).isInfix

theorem eq_not_mem_key_part (line : Str) : '=' ∉ key_part line := by
  intro h
  have := List.mem_takeWhile_imp h
  simp at this

theorem eq_not_mem_strip_key (line : Str) : '=' ∉ strip_spaces (key_part line) :=
  fun h => eq_not_mem_key_part line ((strip_spaces_segment _).subset h)

theorem key_part_ne_nil_head (line : Str) (hk : key_part line ≠ []) :
    line.head? ≠ some '=' := by
  cases line with
  | nil => simp
  | cons a t =>
    intro h
    apply hk
    have : a = '=' := by simpa using h
    simp [key_part, List.takeWhile, this]

theorem strtok_second (line : Str) (hline : NL ∉ line.dropLast) (hv : value_part line ≠ []) :
    (strtok ((line.dropWhile (fun c => c ≠ '=')).drop 1) [NL]).1 = some (value_part line) := by
  have hsuf : ((line.dropWhile (fun c => c ≠ '=')).drop 1) <:+ line :=
    (List.drop_suffix _ _).trans (List.dropWhile_suffix _)
  rw [strtok_value _ (not_mem_dropLast_suffix line _ hsuf hline)]
  unfold value_part at hv
  rw [if_neg hv]
  rfl

/-- C4 (amended). For a line that is not skipped as a comment or blank line and does
not begin with `=`: the first `strtok` call returns the text before the first `=`; when
the text after that `=` (up to the newline) is empty the line sets nothing; otherwise
the second `strtok` call returns that text and `setenv` is called with the trimmed key
part and the trimmed value part, which sets the variable of that name and no other,
unless the trimmed key is empty, in which case nothing is set. -/
theorem loop_body_splits_on_first_eq (line : Str) (env : Env)
    (hline : NL ∉ line.dropLast)
    (hskip : ¬ (line.getD 0 NUL = '#' ∨ line.getD 0 NUL = NL))
    (hkey : key_part line ≠ []) :
    (strtok line ['=']).1 = some (key_part line) ∧
    (value_part line = [] → loop_body line env = env) ∧
    (value_part line ≠ [] →
      (strtok (strtok line ['=']).2 [NL]).1 = some (value_part line) ∧
      loop_body line env
        = setenv env (trim_whitespace (key_part line)) (trim_whitespace (value_part line)) true ∧
      (trim_whitespace (key_part line) ≠ [] →
        getenv (loop_body line env) (trim_whitespace (key_part line))
          = some (trim_whitespace (value_part line)) ∧
        ∀ n, n ≠ trim_whitespace (key_part line) →
          getenv (loop_body line env) n = getenv env n) ∧
      (trim_whitespace (key_part line) = [] → loop_body line env = env)) := by
  have hspec := loop_body_eq_spec line env hline (key_part_ne_nil_head line hkey)
  have hskip2 : ¬ (line.head? = some '#' ∨ line.head? = some NL) := by
    simpa only [getD_zero_eq line '#' (by decide), getD_zero_eq line NL (by decide)] using hskip
  refine ⟨by rw [strtok_key line hkey], ?_, ?_⟩
  · intro hv
    rw [hspec]
    simp [spec_entry, hv]
  · intro hv
    have hbody : loop_body line env
        = setenv env (trim_whitespace (key_part line))
            (trim_whitespace (value_part line)) true := by
      rw [hspec]
      simp only [spec_entry, if_neg hskip2, hkey, hv, or_self, if_false,
        trim_whitespace_eq_strip]
    refine ⟨?_, hbody, ?_, ?_⟩
    · rw [strtok_key line hkey]
      exact strtok_second line hline hv
    · intro hk
      rw [hbody]
      refine ⟨?_, ?_⟩
      · unfold getenv
        apply setenv_same _ _ _ hk
        rw [trim_whitespace_eq_strip]
        exact eq_not_mem_strip_key line
      · intro n hn
        exact setenv_other _ _ _ _ _ hn
    · intro hk
      rw [hbody, hk, setenv_empty_name]

/-- C4, an instance: the value of `K= a=b#c` keeps its `=` and its `#`. -/
theorem loop_body_splits_on_first_eq_witness :
    getenv (loop_body "K= a=b#c \n".toList emptyEnv) "K".toList = some "a=b#c".toList :=
  ((((loop_body_splits_on_first_eq "K= a=b#c \n".toList emptyEnv
    (by decide) (by decide) (by decide)).2.2 (by decide)).2.2.1) (by decide)).1

/-- C4, where the claim fails. The line `=A=B` has an empty key part, so the claim says
it sets nothing, but the environment changes: `A` becomes `B`. The line ` =V` has a
non-empty key part and a non-empty value part, but no variable named by the trimmed
key (the empty name) is set. -/
theorem loop_body_first_eq_counterexample :
    (key_part "=A=B\n".toList = [] ∧
      getenv emptyEnv "A".toList = none ∧
      getenv (loop_body "=A=B\n".toList emptyEnv) "A".toList = some "B".toList) ∧
    (key_part " =V\n".toList ≠ [] ∧ value_part " =V\n".toList ≠ [] ∧
      getenv (loop_body " =V\n".toList emptyEnv) (trim_whitespace (key_part " =V\n".toList))
        = none) := by
  decide

/-! ## Lines without a value -/

theorem strtok_no_delim (s : Str) (hs : '=' ∉ s) (hne : s ≠ []) :
    strtok s ['='] = (some s, []) := by
  have hall : ∀ c ∈ s, c ≠ '=' := fun c hc h => hs (h ▸ hc)
  cases s with
  | nil => exact absurd rfl hne
  | cons a t =>
    have ha : a ≠ '=' := hall a (List.mem_cons_self _ _)
    have h1 : (a :: t).dropWhile (fun c => ['='].contains c) = a :: t := by
      simp [List.dropWhile, ha]
    unfold strtok
    rw [h1]
    have h2 : (a :: t).takeWhile (fun x => !(['='].contains x)) = a :: t := by
      rw [List.takeWhile_eq_self_iff]
      intro c hc
      simpa using hall c hc
    have h3 : (a :: t).dropWhile (fun x => !(['='].contains x)) = [] := by
      rw [List.dropWhile_eq_nil_iff]
      intro c hc
      simpa using hall c hc
    simp only [h2, h3, List.drop_nil]

theorem loop_body_no_eq (line : Str) (env : Env) (h : '=' ∉ line) :
    loop_body line env = env := by
  unfold loop_body
  split_ifs
  · rfl
  · by_cases hne : line = []
    · subst hne
      simp [strtok]
    · rw [strtok_no_delim line h hne]
      simp [strtok]

theorem loop_body_eq_last (k tail : Str) (env : Env) (hk : '=' ∉ k)
    (ht : tail = [] ∨ tail = [NL]) : loop_body (k ++ '=' :: tail) env = env := by
  unfold loop_body
  split_ifs
  · rfl
  · cases k with
    | nil =>
      rcases ht with rfl | rfl
      · simp [strtok]
      · have : NL ≠ '=' := by decide
        simp [strtok, List.dropWhile, List.takeWhile, this]
    | cons a t =>
      have hkp : key_part ((a :: t) ++ '=' :: tail) = a :: t := by
        unfold key_part
        rw [List.takeWhile_append_of_pos]
        · simp [List.takeWhile]
        · intro c hc
          have : c ≠ '=' := fun h => hk (h ▸ hc)
          simpa using this
      have hdw : ((a :: t) ++ '=' :: tail).dropWhile (fun c => c ≠ '=') = '=' :: tail := by
        rw [List.dropWhile_append_of_pos]
        · simp [List.dropWhile]
        · intro c hc
          have : c ≠ '=' := fun h => hk (h ▸ hc)
          simpa using this
      rw [strtok_key _ (by rw [hkp]; simp), hdw]
      rcases ht with rfl | rfl
      · simp [strtok]
      · simp [strtok, List.dropWhile]

theorem append_cons_unique (x : Char) (k tail : List Char) (hk : x ∉ k) (ht : x ∉ tail) :
    ∀ (w z : List Char), k ++ x :: tail = w ++ x :: z → w = k ∧ z = tail := by
  induction k with
  | nil =>
    intro w z h
    cases w with
    | nil => simp at h; exact ⟨rfl, h.symm⟩
    | cons y w =>
      exfalso
      simp only [List.nil_append, List.cons_append, List.cons.injEq] at h
      apply ht
      rw [h.2]
      simp
  | cons a k ih =>
    intro w z h
    cases w with
    | nil =>
      exfalso
      simp only [List.nil_append, List.cons_append, List.cons.injEq] at h
      apply hk
      rw [h.1]
      simp
    | cons y w =>
      simp only [List.cons_append, List.cons.injEq] at h
      obtain ⟨r1, r2⟩ := ih (fun hm => hk (List.mem_cons_of_mem _ hm)) w z h.2
      exact ⟨by rw [r1, h.1], r2⟩

theorem no_value_segment (line d : List Char)
    (h : '=' ∉ line ∨ ∃ k, '=' ∉ k ∧ (line = k ++ ['='] ∨ line = k ++ ['=', NL]))
    (hd : d <:+: line) :
    '=' ∉ d ∨ ∃ k, '=' ∉ k ∧ (d = k ++ ['='] ∨ d = k ++ ['=', NL]) := by
  by_cases hmem : '=' ∈ d
  · right
    rcases h with h | ⟨k, hk, hline⟩
    · exact absurd (hd.subset hmem) h
    · obtain ⟨d1, d2, rfl⟩ := List.append_of_mem hmem
      obtain ⟨u, v, huv⟩ := hd
      have hNL : '=' ∉ [NL] := by decide
      have key : ∀ tail : List Char, '=' ∉ tail → line = k ++ '=' :: tail →
          u ++ d1 = k ∧ d2 ++ v = tail := by
        intro tail ht hl
        have e : k ++ '=' :: tail = (u ++ d1) ++ '=' :: (d2 ++ v) := by
          rw [← hl, ← huv]
          simp [List.append_assoc]
        exact append_cons_unique '=' k tail hk ht _ _ e
      have hd1 : ∀ tail : List Char, '=' ∉ tail → line = k ++ '=' :: tail → '=' ∉ d1 := by
        intro tail ht hl hm
        apply hk
        rw [← (key tail ht hl).1]
        exact List.mem_append_right _ hm
      rcases hline with hl | hl
      · have h2 := (key [] (by simp) hl).2
        have hd2 : d2 = [] := (List.append_eq_nil.mp h2).1
        exact ⟨d1, hd1 [] (by simp) hl, Or.inl (by rw [hd2])⟩
      · have h2 := (key [NL] hNL hl).2
        refine ⟨d1, hd1 [NL] hNL hl, ?_⟩
        cases d2 with
        | nil => exact Or.inl rfl
        | cons a t =>
          right
          simp only [List.cons_append, List.cons.injEq] at h2
          have ht : t = [] := (List.append_eq_nil.mp h2.2).1
          rw [h2.1, ht]
  · exact Or.inl hmem

theorem loop_body_no_value (line : Str) (env : Env)
    (h : '=' ∉ line ∨ ∃ k, '=' ∉ k ∧ (line = k ++ ['='] ∨ line = k ++ ['=', NL])) :
    loop_body line env = env := by
  rcases h with h | ⟨k, hk, rfl | rfl⟩
  · exact loop_body_no_eq line env h
  · exact loop_body_eq_last k [] env hk (Or.inl rfl)
  · exact loop_body_eq_last k [NL] env hk (Or.inr rfl)

theorem cstr_initial (buf : List Char) : cstr buf <+: buf :=
  List.takeWhile_prefix _

theorem foldl_loop_body_id (chunks : List (List Char)) (env : Env)
    (h : ∀ d ∈ chunks, ∀ e : Env, loop_body (cstr d) e = e) :
    chunks.foldl (fun e buf => loop_body (cstr buf) e) env = env := by
  induction chunks generalizing env with
  | nil => rfl
  | cons d t ih =>
    rw [List.foldl_cons, h d (List.mem_cons_self _ _)]
    exact ih env (fun d' hd' => h d' (List.mem_cons_of_mem _ hd'))

theorem load_file_no_value (line : List Char) (env : Env)
    (h : '=' ∉ line ∨ ∃ k, '=' ∉ k ∧ (line = k ++ ['='] ∨ line = k ++ ['=', NL])) :
    load_file line env = env := by
  rw [load_file_eq_foldl]
  apply foldl_loop_body_id
  intro d hd e
  apply loop_body_no_value
  exact no_value_segment line (cstr d) h
    ((cstr_initial d).isInfix.trans (file_chunks_segment line d hd))

theorem lineBoundary_append (pre line : List Char) (h : line.getLast? = some NL) :
    LineBoundary (pre ++ line) := by
  right
  have hne : line ≠ [] := by
    intro h0
    rw [h0] at h
    simp at h
  rw [List.getLast?_append_of_ne_nil _ hne]
  exact h

/-- C5. A line without `=`, and a line that ends right after its first `=` (at the
newline or at the end of the file), changes nothing: not when it is handled as one
buffer, not as a file of its own, not as the last line of a file, and not in the middle
of a file, where reading goes on with what follows. This holds for lines of any
length. -/
theorem malformed_line_sets_nothing (line : List Char) (env : Env)
    (h : '=' ∉ line ∨ ∃ k, '=' ∉ k ∧ (line = k ++ ['='] ∨ line = k ++ ['=', NL])) :
    loop_body (cstr line) env = env ∧
    load_env (some line) env = Except.ok env ∧
    (∀ pre, LineBoundary pre →
      load_env (some (pre ++ line)) env = load_env (some pre) env) ∧
    (∀ pre post, LineBoundary pre → line.getLast? = some NL →
      load_env (some (pre ++ line ++ post)) env = load_env (some (pre ++ post)) env) := by
  refine ⟨?_, ?_, ?_, ?_⟩
  · exact loop_body_no_value _ env (no_value_segment line (cstr line) h (cstr_initial line).isInfix)
  · simp only [load_env, load_file_no_value line env h]
  · intro pre hpre
    simp only [load_env, load_file_append pre line env hpre, load_file_no_value line _ h]
  · intro pre post hpre hlast
    simp only [load_env]
    rw [load_file_append (pre ++ line) post env (lineBoundary_append pre line hlast),
      load_file_append pre line env hpre, load_file_no_value line _ h,
      load_file_append pre post env hpre]

/-- C5, an instance: the line `K=` leaves a variable `K` that is already set as it is. -/
theorem malformed_line_sets_nothing_witness :
    getenv (loop_body (cstr "K=\n".toList) (singleEnv "K".toList "old".toList)) "K".toList
      = some "old".toList := by
  rw [(malformed_line_sets_nothing "K=\n".toList (singleEnv "K".toList "old".toList)
    (Or.inr ⟨"K".toList, by decide, Or.inr rfl⟩)).1]
  decide

/-! ## Comment lines and blank lines -/

theorem loop_body_skip (line : Str) (env : Env)
    (h : line.head? = some '#' ∨ line.head? = some NL) : loop_body line env = env := by
  unfold loop_body
  simp only [getD_zero_eq line '#' (by decide), getD_zero_eq line NL (by decide)]
  rw [if_pos h]

theorem cstr_cons (c : Char) (t : List Char) (hc : c ≠ NUL) : cstr (c :: t) = c :: cstr t := by
  simp [cstr, List.takeWhile, hc]

theorem cstr_eq_self (l : List Char) (h : NUL ∉ l) : cstr l = l := by
  unfold cstr
  rw [List.takeWhile_eq_self_iff]
  intro c hc
  have : c ≠ NUL := fun hh => h (hh ▸ hc)
  simpa using this

theorem load_file_single (buf : List Char) (env : Env) (h : file_chunks buf = [buf]) :
    load_file buf env = loop_body (cstr buf) env := by
  rw [load_file_eq_foldl, h]
  rfl

theorem fgets_read_full (n : Nat) (body rest : List Char) (hb : NL ∉ body)
    (hlen : body.length = n) : fgets_read n (body ++ rest) = (body, rest) := by
  induction body generalizing n with
  | nil =>
    simp only [List.length_nil] at hlen
    subst hlen
    simp [fgets_read]
  | cons c t ih =>
    obtain ⟨m, rfl⟩ : ∃ m, n = m + 1 := ⟨n - 1, by simp at hlen; omega⟩
    have hc : c ≠ NL := fun h => hb (by simp [h])
    have ht : NL ∉ t := fun h => hb (by simp [h])
    simp only [List.length_cons] at hlen
    simp [fgets_read, hc, ih m ht (by omega)]

theorem load_file_short_line (body : List Char) (env : Env) (hb : NL ∉ body)
    (hlen : body.length < 255) :
    load_file (body ++ [NL]) env = loop_body (cstr (body ++ [NL])) env :=
  load_file_single _ env (file_chunks_line body hb (by omega))

theorem load_file_full_line (body : List Char) (env : Env) (hb : NL ∉ body)
    (hlen : body.length = 255) :
    load_file (body ++ [NL]) env = loop_body (cstr body) env := by
  have hchunks : file_chunks (body ++ [NL]) = [body, [NL]] := by
    cases body with
    | nil => simp at hlen
    | cons c t =>
      rw [List.cons_append, file_chunks_cons, ← List.cons_append,
        fgets_read_full 255 (c :: t) [NL] hb hlen]
      have := file_chunks_line [] (by simp) (by simp)
      rw [List.nil_append] at this
      simp only [this]
  rw [load_file_eq_foldl, hchunks]
  simp only [List.foldl_cons, List.foldl_nil]
  rw [cstr_cons NL [] (by decide)]
  exact loop_body_skip _ _ (Or.inr rfl)

theorem load_file_comment (body : List Char) (env : Env) (hb : NL ∉ body)
    (hlen : body.length + 1 ≤ 255) : load_file ('#' :: body ++ [NL]) env = env := by
  have hb2 : NL ∉ '#' :: body := by
    intro h
    rcases List.mem_cons.mp h with h | h
    · exact absurd h (by decide)
    · exact hb h
  rcases Nat.lt_or_ge ('#' :: body).length 255 with h | h
  · rw [load_file_short_line _ env hb2 h, List.cons_append, cstr_cons _ _ (by decide)]
    exact loop_body_skip _ env (Or.inl rfl)
  · rw [load_file_full_line _ env hb2 (by simp only [List.length_cons] at h ⊢; omega),
      cstr_cons _ _ (by decide)]
    exact loop_body_skip _ env (Or.inl rfl)

theorem load_file_blank (env : Env) : load_file [NL] env = env := by
  have := file_chunks_line [] (by simp) (by simp)
  rw [List.nil_append] at this
  rw [load_file_single _ env this, cstr_cons _ _ (by decide)]
  exact loop_body_skip _ env (Or.inr rfl)

theorem load_file_remove (pre line post : List Char) (env : Env) (hpre : LineBoundary pre)
    (hlast : line.getLast? = some NL) (hline : ∀ e : Env, load_file line e = e) :
    load_file (pre ++ line ++ post) env = load_file (pre ++ post) env := by
  rw [load_file_append (pre ++ line) post env (lineBoundary_append pre line hlast),
    load_file_append pre line env hpre, hline, load_file_append pre post env hpre]

/-- C6 (amended). A line that begins with `#` and is at most 255 characters long, its
newline not counted, and a line that is only a newline, change nothing; putting such a
line at a line boundary of a file, or taking it away, does not change the environment
that `load_env` produces. A buffer that begins with `#` is skipped whatever follows
in it. -/
theorem comment_and_blank_lines_are_skipped (pre post body : List Char) (env : Env)
    (hpre : LineBoundary pre) (hbody : NL ∉ body) (hlen : body.length + 1 ≤ 255) :
    (∀ rest, loop_body (cstr ('#' :: rest)) env = env) ∧
    loop_body (cstr [NL]) env = env ∧
    load_env (some (pre ++ ('#' :: body ++ [NL]) ++ post)) env
      = load_env (some (pre ++ post)) env ∧
    load_env (some (pre ++ [NL] ++ post)) env = load_env (some (pre ++ post)) env := by
  refine ⟨?_, ?_, ?_, ?_⟩
  · intro rest
    rw [cstr_cons _ _ (by decide)]
    exact loop_body_skip _ env (Or.inl rfl)
  · rw [cstr_cons _ _ (by decide)]
    exact loop_body_skip _ env (Or.inr rfl)
  · simp only [load_env]
    rw [load_file_remove pre _ post env hpre (by rw [List.getLast?_append]; rfl)
      (fun e => load_file_comment body e hbody hlen)]
  · simp only [load_env]
    rw [load_file_remove pre _ post env hpre (by simp) load_file_blank]

/-- C6, an instance: the comment line `# c` between `A=1` and `B=2`. -/
theorem comment_and_blank_lines_are_skipped_witness :
    load_env (some ("A=1\n".toList ++ ('#' :: " c".toList ++ [NL]) ++ "B=2\n".toList)) emptyEnv
      = load_env (some ("A=1\n".toList ++ "B=2\n".toList)) emptyEnv :=
  (comment_and_blank_lines_are_skipped "A=1\n".toList "B=2\n".toList " c".toList emptyEnv
    (by decide) (by decide) (by decide)).2.2.1

set_option maxRecDepth 100000 in
/-- C6, where the claim fails. The file `long_comment_file` is a single line that
begins with `#`, yet loading it sets `A`, which the empty file does not: the first 255
characters are skipped as a comment and the rest of the line, `A=1`, is read as a line
of its own. -/
theorem long_comment_line_counterexample :
    long_comment_file.head? = some '#' ∧
    NL ∉ long_comment_file.dropLast ∧
    long_comment_file.getLast? = some NL ∧
    getenv (load_file long_comment_file emptyEnv) "A".toList = some "1".toList ∧
    getenv (load_file [] emptyEnv) "A".toList = none := by
  decide

/-! ## Entries in file order -/

theorem cstr_shape (d : List Char) (h : NL ∉ d.dropLast) : NL ∉ (cstr d).dropLast :=
  not_mem_dropLast_initial d (cstr d) (cstr_initial d) h

theorem loop_body_isSome (line : Str) (env : Env) (n : Str) (h : (env n).isSome = true) :
    (loop_body line env n).isSome = true := by
  unfold loop_body
  split_ifs
  · exact h
  · generalize (strtok line ['=']).1 = a
    generalize (strtok (strtok line ['=']).2 [NL]).1 = b
    cases a <;> cases b <;> first | exact h | exact setenv_isSome _ _ _ _ _ h

theorem loop_body_other (line : Str) (env : Env) (n : Str) (hline : NL ∉ line.dropLast)
    (hhead : line.head? ≠ some '=') (hn : ∀ v, spec_entry line ≠ some (n, v)) :
    loop_body line env n = env n := by
  rw [loop_body_eq_spec line env hline hhead]
  cases hs : spec_entry line with
  | none => rfl
  | some kv =>
    obtain ⟨k, v⟩ := kv
    have : n ≠ k := by
      rintro rfl
      exact hn v hs
    exact setenv_other _ _ _ _ _ this

theorem spec_entry_key (line k v : Str) (h : spec_entry line = some (k, v)) :
    key_part line ≠ [] ∧ k = strip_spaces (key_part line) := by
  unfold spec_entry at h
  split_ifs at h with h1 h2
  simp only [Option.some.injEq, Prod.mk.injEq] at h
  exact ⟨fun hk => h2 (Or.inl hk), h.1.symm⟩

theorem loop_body_entry (line : Str) (env : Env) (k v : Str) (hline : NL ∉ line.dropLast)
    (hs : spec_entry line = some (k, v)) (hk : k ≠ []) :
    loop_body line env k = some v := by
  obtain ⟨hkp, hkeq⟩ := spec_entry_key line k v hs
  rw [loop_body_eq_spec line env hline (key_part_ne_nil_head line hkp), hs]
  apply setenv_same _ _ _ hk
  rw [hkeq]
  exact eq_not_mem_strip_key line

theorem foldl_loop_body_other (chunks : List (List Char)) (env : Env) (n : Str)
    (h : ∀ d ∈ chunks, ∀ e : Env, loop_body (cstr d) e n = e n) :
    chunks.foldl (fun e buf => loop_body (cstr buf) e) env n = env n := by
  induction chunks generalizing env with
  | nil => rfl
  | cons d t ih =>
    rw [List.foldl_cons, ih _ (fun d' hd' => h d' (List.mem_cons_of_mem _ hd'))]
    exact h d (List.mem_cons_self _ _) env

theorem foldl_loop_body_isSome (chunks : List (List Char)) (env : Env) (n : Str)
    (h : (env n).isSome = true) :
    (chunks.foldl (fun e buf => loop_body (cstr buf) e) env n).isSome = true := by
  induction chunks generalizing env with
  | nil => exact h
  | cons d t ih =>
    rw [List.foldl_cons]
    exact ih _ (loop_body_isSome _ _ _ h)

theorem load_file_last_entry (file : List Char) (env : Env)
    (before after : List (List Char)) (c : List Char) (k v : Str)
    (hsplit : file_chunks file = before ++ c :: after)
    (hentry : spec_entry (cstr c) = some (k, v)) (hk : k ≠ [])
    (hlast : ∀ d ∈ after, ∀ w, spec_entry (cstr d) ≠ some (k, w))
    (hnoeq : ∀ d ∈ after, (cstr d).head? ≠ some '=') :
    load_file file env k = some v := by
  have hshape : ∀ d ∈ file_chunks file, NL ∉ (cstr d).dropLast :=
    fun d hd => cstr_shape d (file_chunks_shape file d hd).2.2
  rw [load_file_eq_foldl, hsplit, List.foldl_append, List.foldl_cons]
  rw [hsplit] at hshape
  rw [foldl_loop_body_other after _ k]
  · exact loop_body_entry _ _ k v (hshape c (by simp)) hentry hk
  · intro d hd e
    exact loop_body_other _ e k (hshape d (by simp [hd])) (hnoeq d hd) (fun w => hlast d hd w)

/-- C7 (amended). Read the file as the sequence of buffers the reading loop gets (each
line, or piece of a line, of at most 255 characters). If one of them is an entry line
for the key `k` (not a comment, non-empty key part, non-empty value part, trimmed key
`k` non-empty) with trimmed value `v`, and after it comes no further entry line for `k`
and no line that begins with `=`, then after `load_env` the lookup of `k` yields `v`. -/
theorem last_entry_wins (file : List Char) (env : Env)
    (before after : List (List Char)) (c : List Char) (k v : Str)
    (hsplit : file_chunks file = before ++ c :: after)
    (hentry : spec_entry (cstr c) = some (k, v)) (hk : k ≠ [])
    (hlast : ∀ d ∈ after, ∀ w, spec_entry (cstr d) ≠ some (k, w))
    (hnoeq : ∀ d ∈ after, (cstr d).head? ≠ some '=') :
    ∃ env', load_env (some file) env = Except.ok env' ∧ getenv env' k = some v :=
  ⟨load_file file env, rfl,
    load_file_last_entry file env before after c k v hsplit hentry hk hlast hnoeq⟩

/-- C7, instances: after the file `A=1`, `A=2` the variable `A` is `2`, and it is still
`2` when the line `B=3` follows. -/
theorem last_entry_wins_witness :
    (∃ env', load_env (some "A=1\nA=2\n".toList) emptyEnv = Except.ok env' ∧
      getenv env' "A".toList = some "2".toList) ∧
    (∃ env', load_env (some "A=1\nA=2\nB=3\n".toList) emptyEnv = Except.ok env' ∧
      getenv env' "A".toList = some "2".toList) :=
  ⟨last_entry_wins "A=1\nA=2\n".toList emptyEnv ["A=1\n".toList] [] "A=2\n".toList
    "A".toList "2".toList (by decide) (by decide) (by decide) (by simp) (by simp),
   last_entry_wins "A=1\nA=2\nB=3\n".toList emptyEnv ["A=1\n".toList] ["B=3\n".toList]
    "A=2\n".toList "A".toList "2".toList (by decide) (by decide) (by decide)
    (by
      intro d hd w hw
      rw [List.mem_singleton.mp hd] at hw
      have h2 : spec_entry (cstr "B=3\n".toList) = some ("B".toList, "3".toList) := by decide
      rw [h2] at hw
      simp at hw)
    (by
      intro d hd
      rw [List.mem_singleton.mp hd]
      decide)⟩

set_option maxRecDepth 100000 in
/-- C7, where the claim fails. In the file `A=1`, `A=2`, `=A=3` the entry lines for `A`
are the first two (the third has an empty key part), yet `A` ends as `3`. In the file
`A=1`, `A=2`, `long_entry_line` the third line is an entry line for another key (255
times `x`, then `A`), yet `A` ends as `3`. -/
theorem last_entry_wins_counterexample :
    (spec_entry "A=1\n".toList = some ("A".toList, "1".toList) ∧
      spec_entry "A=2\n".toList = some ("A".toList, "2".toList) ∧
      spec_entry "=A=3\n".toList = none ∧
      getenv (load_file ("A=1\n".toList ++ "A=2\n".toList ++ "=A=3\n".toList) emptyEnv)
        "A".toList = some "3".toList) ∧
    (NL ∉ long_entry_line.dropLast ∧
      spec_entry long_entry_line
        = some (List.replicate 255 'x' ++ "A".toList, "3".toList) ∧
      getenv (load_file ("A=1\n".toList ++ "A=2\n".toList ++ long_entry_line) emptyEnv)
        "A".toList = some "3".toList) := by
  decide

/-- C8 (amended). `load_env` deletes nothing: a variable that is set before is set
afterwards. If no buffer the reading loop gets begins with `=`, a variable whose name
is not the trimmed key of an entry line among those buffers has the same value
afterwards as before. -/
theorem load_env_only_adds (file : List Char) (env : Env) :
    ∃ env', load_env (some file) env = Except.ok env' ∧
      (∀ n, (getenv env n).isSome = true → (getenv env' n).isSome = true) ∧
      (∀ n, (∀ d ∈ file_chunks file, (cstr d).head? ≠ some '=') →
        (∀ d ∈ file_chunks file, ∀ v, spec_entry (cstr d) ≠ some (n, v)) →
        getenv env' n = getenv env n) := by
  refine ⟨load_file file env, rfl, ?_, ?_⟩
  · intro n hn
    unfold getenv at hn ⊢
    rw [load_file_eq_foldl]
    exact foldl_loop_body_isSome _ _ _ hn
  · intro n hnoeq hkeys
    unfold getenv
    rw [load_file_eq_foldl]
    apply foldl_loop_body_other
    intro d hd e
    exact loop_body_other _ e n (cstr_shape d (file_chunks_shape file d hd).2.2)
      (hnoeq d hd) (hkeys d hd)

/-- C8, an instance: loading the file `A=1` leaves the variable `B` as it was. -/
theorem load_env_only_adds_witness :
    getenv (load_file "A=1\n".toList (singleEnv "B".toList "2".toList)) "B".toList
      = getenv (singleEnv "B".toList "2".toList) "B".toList := by
  obtain ⟨env', h1, _, h3⟩ :=
    load_env_only_adds "A=1\n".toList (singleEnv "B".toList "2".toList)
  have h0 : env' = load_file "A=1\n".toList (singleEnv "B".toList "2".toList) := by
    simp only [load_env, Except.ok.injEq] at h1
    exact h1.symm
  rw [← h0]
  apply h3
  · intro d hd
    have hc : file_chunks "A=1\n".toList = ["A=1\n".toList] := by decide
    rw [hc, List.mem_singleton] at hd
    rw [hd]
    decide
  · intro d hd v hv
    have hc : file_chunks "A=1\n".toList = ["A=1\n".toList] := by decide
    rw [hc, List.mem_singleton] at hd
    rw [hd] at hv
    have h2 : spec_entry (cstr "A=1\n".toList) = some ("A".toList, "1".toList) := by decide
    rw [h2] at hv
    simp at hv

set_option maxRecDepth 100000 in
/-- C8, where the claim fails. The only line of the file `=A=3` has an empty key part
and is no entry line, yet loading the file changes `A` from `1` to `3`. The only line
of the file `long_entry_line` is an entry line for another key (255 times `x`, then
`A`), yet loading the file changes `A` from `1` to `3`. -/
theorem load_env_only_adds_counterexample :
    (spec_entry "=A=3\n".toList = none ∧
      getenv (singleEnv "A".toList "1".toList) "A".toList = some "1".toList ∧
      getenv (load_file "=A=3\n".toList (singleEnv "A".toList "1".toList)) "A".toList
        = some "3".toList) ∧
    (NL ∉ long_entry_line.dropLast ∧
      spec_entry long_entry_line
        = some (List.replicate 255 'x' ++ "A".toList, "3".toList) ∧
      getenv (load_file long_entry_line (singleEnv "A".toList "1".toList)) "A".toList
        = some "3".toList) := by
  decide

/-! ## A single entry line -/

theorem key_part_append (key rest : Str) (hk : '=' ∉ key) :
    key_part (key ++ '=' :: rest) = key := by
  unfold key_part
  rw [List.takeWhile_append_of_pos]
  · simp [List.takeWhile]
  · intro c hc
    have : c ≠ '=' := fun h => hk (h ▸ hc)
    simpa using this

theorem value_part_append (key value tail : Str) (hk : '=' ∉ key) (hv : NL ∉ value)
    (ht : tail = [] ∨ tail = [NL]) :
    value_part (key ++ '=' :: (value ++ tail)) = value := by
  unfold value_part
  rw [List.dropWhile_append_of_pos]
  · have h1 : ('=' :: (value ++ tail)).dropWhile (fun c => decide (c ≠ '=')) = '=' :: (value ++ tail) := by
      simp [List.dropWhile]
    rw [h1, List.drop_one, List.tail_cons]
    have hall : ∀ c ∈ value, decide (c ≠ NL) = true := by
      intro c hc
      have : c ≠ NL := fun h => hv (h ▸ hc)
      simpa using this
    rw [List.takeWhile_append_of_pos hall]
    rcases ht with rfl | rfl <;> simp [List.takeWhile]
  · intro c hc
    have : c ≠ '=' := fun h => hk (h ▸ hc)
    simpa using this

theorem spec_entry_line (key value tail : Str) (hk1 : '=' ∉ key) (hk2 : NL ∉ key)
    (hk3 : key.head? ≠ some '#') (hk4 : key ≠ []) (hv1 : NL ∉ value) (hv2 : value ≠ [])
    (ht : tail = [] ∨ tail = [NL]) :
    spec_entry (key ++ '=' :: (value ++ tail))
      = some (strip_spaces key, strip_spaces value) := by
  unfold spec_entry
  rw [key_part_append key _ hk1, value_part_append key value tail hk1 hv1 ht]
  have hhead : (key ++ '=' :: (value ++ tail)).head? = key.head? := by
    cases key with
    | nil => exact absurd rfl hk4
    | cons a t => rfl
  rw [hhead]
  have hnl : key.head? ≠ some NL := by
    intro h
    cases key with
    | nil => simp at h
    | cons a t =>
      simp only [List.head?_cons, Option.some.injEq] at h
      exact hk2 (by simp [h])
  rw [if_neg (by simp [hk3, hnl]), if_neg (by simp [hk4, hv2])]

theorem loop_body_entry_line (env : Env) (key value tail : Str)
    (hk1 : '=' ∉ key) (hk2 : NL ∉ key) (hk4 : key.head? ≠ some '#')
    (hk5 : trim_whitespace key ≠ [])
    (hv1 : NL ∉ value) (hv3 : value ≠ []) (ht : tail = [] ∨ tail = [NL]) :
    loop_body (key ++ '=' :: (value ++ tail)) env (trim_whitespace key)
      = some (trim_whitespace value) := by
  have hkne : key ≠ [] := by
    rintro rfl
    exact hk5 (by decide)
  have hbody : NL ∉ key ++ '=' :: value := by
    intro h
    rcases List.mem_append.mp h with h | h
    · exact hk2 h
    · rcases List.mem_cons.mp h with h | h
      · exact absurd h (by decide)
      · exact hv1 h
  have hshape : NL ∉ (key ++ '=' :: (value ++ tail)).dropLast := by
    rcases ht with rfl | rfl
    · rw [List.append_nil]
      exact fun h => hbody ((List.dropLast_subset _) h)
    · have : key ++ '=' :: (value ++ [NL]) = (key ++ '=' :: value) ++ [NL] := by simp
      rw [this, List.dropLast_concat]
      exact hbody
  have hs := spec_entry_line key value tail hk1 hk2 hk4 hkne hv1 hv3 ht
  rw [← trim_whitespace_eq_strip, ← trim_whitespace_eq_strip] at hs
  exact loop_body_entry _ env _ _ hshape hs hk5

theorem load_file_entry_line (env : Env) (key value : Str)
    (hk1 : '=' ∉ key) (hk2 : NL ∉ key) (hk3 : NUL ∉ key) (hk4 : key.head? ≠ some '#')
    (hk5 : trim_whitespace key ≠ [])
    (hv1 : NL ∉ value) (hv2 : NUL ∉ value) (hv3 : value ≠ [])
    (hlen : key.length + value.length + 1 ≤ 255) :
    load_file (key ++ '=' :: value ++ [NL]) env (trim_whitespace key)
      = some (trim_whitespace value) := by
  have hbody : NL ∉ key ++ '=' :: value := by
    intro h
    rcases List.mem_append.mp h with h | h
    · exact hk2 h
    · rcases List.mem_cons.mp h with h | h
      · exact absurd h (by decide)
      · exact hv1 h
  have hnul : NUL ∉ key ++ '=' :: value := by
    intro h
    rcases List.mem_append.mp h with h | h
    · exact hk3 h
    · rcases List.mem_cons.mp h with h | h
      · exact absurd h (by decide)
      · exact hv2 h
  have hnul2 : NUL ∉ key ++ '=' :: value ++ [NL] := by
    intro h
    rcases List.mem_append.mp h with h | h
    · exact hnul h
    · exact absurd (List.mem_singleton.mp h) (by decide)
  rcases Nat.lt_or_ge (key ++ '=' :: value).length 255 with h | h
  · rw [load_file_short_line _ env hbody h, cstr_eq_self _ hnul2]
    have hform : key ++ '=' :: value ++ [NL] = key ++ '=' :: (value ++ [NL]) := by simp
    rw [hform]
    exact loop_body_entry_line env key value [NL] hk1 hk2 hk4 hk5 hv1 hv3 (Or.inr rfl)
  · have hl : (key ++ '=' :: value).length = 255 := by
      simp only [List.length_append, List.length_cons] at h ⊢
      omega
    rw [load_file_full_line _ env hbody hl, cstr_eq_self _ hnul]
    have := loop_body_entry_line env key value [] hk1 hk2 hk4 hk5 hv1 hv3 (Or.inl rfl)
    rw [List.append_nil] at this
    exact this

/-- C1 (amended). Let KEY and VALUE be C strings (no NUL) without a newline, KEY without
`=`, not beginning with `#` and not made of spaces only (nor empty), VALUE not empty,
and the line `KEY=VALUE`, without its newline, at most 255 characters long. Then for every
initial environment, after `load_env` has read a file whose last line is `KEY=VALUE`
followed by a newline, the lookup of the trimmed KEY yields the trimmed VALUE. -/
theorem round_trip (env : Env) (pre key value : List Char)
    (hpre : LineBoundary pre)
    (hk1 : '=' ∉ key) (hk2 : NL ∉ key) (hk3 : NUL ∉ key) (hk4 : key.head? ≠ some '#')
    (hk5 : trim_whitespace key ≠ [])
    (hv1 : NL ∉ value) (hv2 : NUL ∉ value) (hv3 : value ≠ [])
    (hlen : key.length + value.length + 1 ≤ 255) :
    ∃ env', load_env (some (pre ++ entry_line key value)) env = Except.ok env' ∧
      getenv env' (trim_whitespace key) = some (trim_whitespace value) := by
  refine ⟨_, rfl, ?_⟩
  unfold getenv entry_line
  rw [load_file_append pre _ env hpre]
  exact load_file_entry_line _ key value hk1 hk2 hk3 hk4 hk5 hv1 hv2 hv3 hlen

/-- C1, an instance: the file `ANOTHER_KEY = value with spaces trimmed` after a comment
line, read into an environment in which the key is already set to something else. -/
theorem round_trip_witness :
    ∃ env', load_env (some ("# comment line, ignored\n".toList ++
        entry_line " ANOTHER_KEY ".toList " value with spaces trimmed ".toList))
        (singleEnv "ANOTHER_KEY".toList "old".toList) = Except.ok env' ∧
      getenv env' "ANOTHER_KEY".toList = some "value with spaces trimmed".toList :=
  round_trip (singleEnv "ANOTHER_KEY".toList "old".toList)
    "# comment line, ignored\n".toList " ANOTHER_KEY ".toList
    " value with spaces trimmed ".toList
    (by decide) (by decide) (by decide) (by decide) (by decide) (by decide)
    (by decide) (by decide) (by decide) (by decide)

set_option maxRecDepth 100000 in
/-- C1, where the claim fails. In each case the file holds the line `KEY=VALUE` and a
newline, and the lookup of the trimmed KEY does not yield the trimmed VALUE: an empty
VALUE leaves the old value of `K`; a KEY that begins with `#` makes a comment line; a
KEY of spaces only gives an empty name, which is never set; a line longer than 255
characters is read in pieces; and a later line for the same key wins. -/
theorem round_trip_counterexample :
    getenv (load_file (entry_line "K".toList []) (singleEnv "K".toList "old".toList))
        (trim_whitespace "K".toList) ≠ some (trim_whitespace []) ∧
    getenv (load_file (entry_line "#K".toList "V".toList) emptyEnv)
        (trim_whitespace "#K".toList) ≠ some (trim_whitespace "V".toList) ∧
    getenv (load_file (entry_line " ".toList "V".toList) emptyEnv)
        (trim_whitespace " ".toList) ≠ some (trim_whitespace "V".toList) ∧
    getenv (load_file (entry_line long_key "V".toList) emptyEnv)
        (trim_whitespace long_key) ≠ some (trim_whitespace "V".toList) ∧
    getenv (load_file (entry_line "A".toList "1".toList ++ entry_line "A".toList "2".toList)
        emptyEnv) (trim_whitespace "A".toList) ≠ some (trim_whitespace "1".toList) := by
  decide

/-! ## main -/

theorem main_eq_launch (content : List Char) (execvp : ExecCall → Bool) (env0 : Env) :
    main (some content) execvp env0 = launch execvp (load_file content env0) := rfl

theorem launch_of_set (execvp : ExecCall → Bool) (env : Env) (o t c l : Str)
    (ho : getenv env "ORIGIN_CERT".toList = some o)
    (ht : getenv env "TUNNEL_ID".toList = some t)
    (hc : getenv env "CONFIG".toList = some c)
    (hl : getenv env "LOG_LEVEL".toList = some l) :
    launch execvp env =
      if execvp (ExecCall.mk "cloudflared".toList
          ["cloudflared".toList, "tunnel".toList, "--config".toList, c,
            "--loglevel".toList, l, "run".toList, t]
          (setenv env "ORIGIN_CERT".toList o true))
      then Outcome.replaced (ExecCall.mk "cloudflared".toList
          ["cloudflared".toList, "tunnel".toList, "--config".toList, c,
            "--loglevel".toList, l, "run".toList, t]
          (setenv env "ORIGIN_CERT".toList o true))
      else Outcome.exec_failed (ExecCall.mk "cloudflared".toList
          ["cloudflared".toList, "tunnel".toList, "--config".toList, c,
            "--loglevel".toList, l, "run".toList, t]
          (setenv env "ORIGIN_CERT".toList o true)) EXIT_FAILURE := by
  unfold launch
  rw [ho, ht, hc, hl]
  rfl

theorem launch_of_unset (execvp : ExecCall → Bool) (env : Env) (h : ¬ all_required_set env) :
    launch execvp env = Outcome.exited EXIT_FAILURE env := by
  unfold all_required_set at h
  unfold launch
  cases ho : getenv env "ORIGIN_CERT".toList <;> cases ht : getenv env "TUNNEL_ID".toList <;>
    cases hc : getenv env "CONFIG".toList <;> cases hl : getenv env "LOG_LEVEL".toList <;>
    first
      | rfl
      | (exfalso; apply h; rw [ho, ht, hc, hl]; exact ⟨rfl, rfl, rfl, rfl⟩)

theorem launch_call_isSome (execvp : ExecCall → Bool) (env : Env) (h : all_required_set env) :
    (launch execvp env).call.isSome = true := by
  obtain ⟨h1, h2, h3, h4⟩ := h
  obtain ⟨o, ho⟩ := Option.isSome_iff_exists.mp h1
  obtain ⟨t, ht⟩ := Option.isSome_iff_exists.mp h2
  obtain ⟨c, hc⟩ := Option.isSome_iff_exists.mp h3
  obtain ⟨l, hl⟩ := Option.isSome_iff_exists.mp h4
  rw [launch_of_set execvp env o t c l ho ht hc hl]
  split_ifs <;> rfl

/-- C2. Whatever environment `load_env` leaves: `main` calls `execvp` exactly when all
four of ORIGIN_CERT, TUNNEL_ID, CONFIG and LOG_LEVEL are set, and when `execvp` succeeds
the process image is replaced exactly then; if one of them is unset `main` returns
`EXIT_FAILURE`, which is not zero, in the environment as loaded and without any call of
`execvp`. Only presence is tested: with all four set to the empty string the call is
made. -/
theorem missing_variable_gate (content : List Char) (execvp : ExecCall → Bool) (env0 : Env) :
    ((main (some content) execvp env0).call.isSome = true
      ↔ all_required_set (load_file content env0)) ∧
    ((∀ call, execvp call = true) →
      ((∃ call, main (some content) execvp env0 = Outcome.replaced call)
        ↔ all_required_set (load_file content env0))) ∧
    (¬ all_required_set (load_file content env0) →
      main (some content) execvp env0 = Outcome.exited EXIT_FAILURE (load_file content env0) ∧
      (main (some content) execvp env0).status = some EXIT_FAILURE ∧
      (main (some content) execvp env0).call = none) ∧
    EXIT_FAILURE ≠ 0 ∧
    (∀ env, all_required_set env ↔
      (getenv env "ORIGIN_CERT".toList ≠ none ∧ getenv env "TUNNEL_ID".toList ≠ none ∧
        getenv env "CONFIG".toList ≠ none ∧ getenv env "LOG_LEVEL".toList ≠ none)) ∧
    all_required_set allEmptyEnv ∧
    (launch execvp allEmptyEnv).call.isSome = true := by
  rw [main_eq_launch]
  refine ⟨⟨?_, launch_call_isSome execvp _⟩, ?_, ?_, by decide, ?_, by decide, ?_⟩
  · intro h
    by_contra hn
    rw [launch_of_unset execvp _ hn] at h
    simp [Outcome.call] at h
  · intro hex
    constructor
    · rintro ⟨call, hcall⟩
      by_contra hn
      rw [launch_of_unset execvp _ hn] at hcall
      cases hcall
    · rintro ⟨h1, h2, h3, h4⟩
      obtain ⟨o, ho⟩ := Option.isSome_iff_exists.mp h1
      obtain ⟨t, ht⟩ := Option.isSome_iff_exists.mp h2
      obtain ⟨c, hc⟩ := Option.isSome_iff_exists.mp h3
      obtain ⟨l, hl⟩ := Option.isSome_iff_exists.mp h4
      rw [launch_of_set execvp _ o t c l ho ht hc hl, if_pos (hex _)]
      exact ⟨_, rfl⟩
  · intro hn
    rw [launch_of_unset execvp _ hn]
    exact ⟨rfl, rfl, rfl⟩
  · intro env
    simp only [all_required_set, ne_eq, Option.isSome_iff_ne_none]
  · exact launch_call_isSome execvp _ (by decide)

/-- C2, instances: with the file `example_dotenv` all four variables are set and `main`
calls `execvp`; with an empty file and an empty environment it returns `EXIT_FAILURE`
without calling it. -/
theorem missing_variable_gate_witness :
    (main (some example_dotenv) (fun _ => true) emptyEnv).call.isSome = true ∧
    main (some []) (fun _ => true) emptyEnv = Outcome.exited EXIT_FAILURE (load_file [] emptyEnv) :=
  ⟨(missing_variable_gate example_dotenv (fun _ => true) emptyEnv).1.mpr (by decide),
   ((missing_variable_gate [] (fun _ => true) emptyEnv).2.2.1 (by decide)).1⟩

/-- C3. When all four required variables are set, with CONFIG `c`, LOG_LEVEL `l` and
TUNNEL_ID `t`, `main` calls `execvp` for the program name `cloudflared` with the eight
arguments `cloudflared tunnel --config c --loglevel l run t`, whatever the value of
ORIGIN_CERT is. -/
theorem argument_construction (content : List Char) (execvp : ExecCall → Bool) (env0 : Env)
    (o t c l : Str)
    (ho : getenv (load_file content env0) "ORIGIN_CERT".toList = some o)
    (ht : getenv (load_file content env0) "TUNNEL_ID".toList = some t)
    (hc : getenv (load_file content env0) "CONFIG".toList = some c)
    (hl : getenv (load_file content env0) "LOG_LEVEL".toList = some l) :
    ∃ call, (main (some content) execvp env0).call = some call ∧
      call.file = "cloudflared".toList ∧
      call.argv = ["cloudflared".toList, "tunnel".toList, "--config".toList, c,
        "--loglevel".toList, l, "run".toList, t] ∧
      call.argv.length = 8 := by
  rw [main_eq_launch, launch_of_set execvp _ o t c l ho ht hc hl]
  split_ifs <;> exact ⟨_, rfl, rfl, rfl, rfl⟩

/-- C3, the instance of the claim: CONFIG=/etc/c.yml, LOG_LEVEL=debug,
TUNNEL_ID=abc123. -/
theorem argument_construction_witness :
    ∃ call, (main (some example_dotenv) (fun _ => true) emptyEnv).call = some call ∧
      call.file = "cloudflared".toList ∧
      call.argv = ["cloudflared".toList, "tunnel".toList, "--config".toList,
        "/etc/c.yml".toList, "--loglevel".toList, "debug".toList, "run".toList,
        "abc123".toList] ∧
      call.argv.length = 8 :=
  argument_construction example_dotenv (fun _ => true) emptyEnv "/etc/cert.pem".toList
    "abc123".toList "/etc/c.yml".toList "debug".toList
    (by decide) (by decide) (by decide) (by decide)

/-- C9. When the configuration file cannot be opened, `load_env` ends the program with
`EXIT_FAILURE`, which is not zero: the environment is the inherited one, and `execvp`
is not called, also when all four required variables are set in the inherited
environment. -/
theorem config_open_failure_is_fatal (execvp : ExecCall → Bool) (env0 : Env) :
    load_env none env0 = Except.error EXIT_FAILURE ∧
    main none execvp env0 = Outcome.exited EXIT_FAILURE env0 ∧
    (main none execvp env0).status = some EXIT_FAILURE ∧
    EXIT_FAILURE ≠ 0 ∧
    (main none execvp env0).call = none ∧
    (all_required_set env0 → (main none execvp env0).call = none) :=
  ⟨rfl, rfl, rfl, by decide, rfl, fun _ => rfl⟩

/-- C9, an instance: all four variables are inherited (as empty strings), the file
cannot be opened, and `execvp` is not called. -/
theorem config_open_failure_is_fatal_witness :
    all_required_set allEmptyEnv ∧ (main none (fun _ => true) allEmptyEnv).call = none :=
  ⟨by decide, (config_open_failure_is_fatal (fun _ => true) allEmptyEnv).2.2.2.2.2 (by decide)⟩

/-! ## The positions trim_whitespace touches -/

theorem skip_count_add (str : Str) : skip_count str + (skip_spaces str).length = str.length := by
  induction str with
  | nil => rfl
  | cons c t ih =>
    by_cases h : c = ' '
    · simp only [skip_count, skip_spaces, h, if_true, List.length_cons]
      omega
    · simp [skip_count, skip_spaces, h]

theorem skip_spaces_drop (str : Str) : skip_spaces str = str.drop (skip_count str) := by
  induction str with
  | nil => rfl
  | cons c t ih =>
    by_cases h : c = ' '
    · simp only [skip_count, skip_spaces, h, if_true, List.drop_succ_cons]
      exact ih
    · simp [skip_count, skip_spaces, h]

theorem scan_back_bounds (s : Str) :
    ∀ (fuel : Nat) (e : Int), -1 ≤ e → -1 ≤ scan_back s fuel e ∧ scan_back s fuel e ≤ e := by
  intro fuel
  induction fuel with
  | zero =>
    intro e he
    simp only [scan_back]
    omega
  | succ fuel ih =>
    intro e he
    unfold scan_back
    split_ifs with hc
    · have := ih (e - 1) (by omega)
      omega
    · omega

theorem scan_back_reads_bounds (s : Str) :
    ∀ (fuel : Nat) (e : Int), ∀ p ∈ scan_back_reads s fuel e, 0 < p ∧ p ≤ e := by
  intro fuel
  induction fuel with
  | zero =>
    intro e p hp
    simp [scan_back_reads] at hp
  | succ fuel ih =>
    intro e p hp
    unfold scan_back_reads at hp
    split_ifs at hp with h1 h2
    · rcases List.mem_cons.mp hp with rfl | hp
      · omega
      · have := ih (e - 1) p hp
        omega
    · rcases List.mem_cons.mp hp with rfl | hp
      · omega
      · simp at hp
    · simp at hp

theorem scan_back_reads_fuel (s : Str) (f1 : Nat) :
    ∀ (f2 : Nat) (e : Int), e ≤ f1 → e ≤ f2 →
      scan_back_reads s f1 e = scan_back_reads s f2 e := by
  induction f1 with
  | zero =>
    intro f2 e h1 _
    cases f2 with
    | zero => rfl
    | succ f2 =>
      have : ¬ (0 < e) := by simp at h1; omega
      simp [scan_back_reads, this]
  | succ f1 ih =>
    intro f2 e h1 h2
    cases f2 with
    | zero =>
      have : ¬ (0 < e) := by simp at h2; omega
      simp [scan_back_reads, this]
    | succ f2 =>
      unfold scan_back_reads
      split_ifs with h3 h4
      · rw [ih f2 (e - 1) (by push_cast at h1; omega) (by push_cast at h2; omega)]
      · rfl
      · rfl

/-- C15. For every string: the pointer `trim_whitespace` returns lies inside the string
(it is the argument advanced past the leading spaces); when nothing but spaces was
there, `end` starts one position before it; every position the backward scan reads
lies after the returned pointer and before the terminator, so none lies before the
returned pointer; and the terminator is written at a position from the returned
pointer to the old terminator, both included, which cuts the result there. -/
theorem trim_whitespace_stays_inside (str : Str) :
    skip_count str ≤ str.length ∧
    skip_spaces str = str.drop (skip_count str) ∧
    (skip_spaces str = [] → trim_end_init str = (skip_count str : Int) - 1) ∧
    (∀ p ∈ trim_scan_reads str, (skip_count str : Int) < p ∧ p < (str.length : Int)) ∧
    (skip_count str : Int) ≤ trim_write_pos str ∧
    trim_write_pos str ≤ (str.length : Int) ∧
    trim_whitespace str
      = (str.drop (skip_count str)).take (trim_write_pos str - (skip_count str : Int)).toNat := by
  have hadd := skip_count_add str
  have hb := scan_back_bounds (skip_spaces str) (skip_spaces str).length
    (((skip_spaces str).length : Int) - 1) (by omega)
  refine ⟨by omega, skip_spaces_drop str, ?_, ?_, ?_, ?_, ?_⟩
  · intro h
    simp [trim_end_init, h]
  · intro p hp
    unfold trim_scan_reads at hp
    obtain ⟨q, hq, rfl⟩ := List.mem_map.mp hp
    have := scan_back_reads_bounds _ _ _ q hq
    omega
  · unfold trim_write_pos
    omega
  · unfold trim_write_pos
    omega
  · unfold trim_whitespace trim_write_pos
    simp only
    rw [← skip_spaces_drop]
    congr 1
    omega

/-- C15, instances: for a string of three spaces `end` starts at offset 2, one before the
returned pointer at offset 3, nothing is read and the terminator is written at offset
3; for `  ab  ` the scan reads offsets 5, 4 and 3, all after the returned pointer at
offset 2, and the terminator is written at offset 4. -/
theorem trim_whitespace_stays_inside_witness :
    trim_end_init "   ".toList = 2 ∧ trim_scan_reads "   ".toList = [] ∧
    trim_write_pos "   ".toList = 3 ∧
    trim_scan_reads "  ab  ".toList = [5, 4, 3] ∧ trim_write_pos "  ab  ".toList = 4 ∧
    (∀ p ∈ trim_scan_reads "  ab  ".toList, (2 : Int) < p ∧ p < 6) :=
  ⟨(trim_whitespace_stays_inside "   ".toList).2.2.1 (by decide), by decide, by decide,
    by decide, by decide, (trim_whitespace_stays_inside "  ab  ".toList).2.2.2.1⟩

/-! ## The setenv calls of the reading loop -/

theorem loop_body_eq_call (line : Str) (env : Env) :
    loop_body line env
      = match loop_call line with
        | none => env
        | some (k, v) => setenv env k v true := by
  unfold loop_body loop_call
  split_ifs
  · rfl
  · generalize (strtok line ['=']).1 = a
    generalize (strtok (strtok line ['=']).2 [NL]).1 = b
    cases a <;> cases b <;> rfl

theorem foldl_calls (chunks : List (List Char)) (env : Env) :
    chunks.foldl (fun e buf => loop_body (cstr buf) e) env
      = (chunks.filterMap (fun buf => loop_call (cstr buf))).foldl
          (fun e kv => setenv e kv.1 kv.2 true) env := by
  induction chunks generalizing env with
  | nil => rfl
  | cons d t ih =>
    rw [List.foldl_cons, ih, loop_body_eq_call]
    cases h : loop_call (cstr d) with
    | none => simp [List.filterMap_cons, h]
    | some kv => simp [List.filterMap_cons, h]

theorem load_file_eq_calls (content : List Char) (env : Env) :
    load_file content env
      = (load_calls content).foldl (fun e kv => setenv e kv.1 kv.2 true) env := by
  rw [load_file_eq_foldl, foldl_calls]
  rfl

theorem strtok_token_no_delim (s : Str) (d : Char) (tok : Str)
    (h : (strtok s [d]).1 = some tok) : d ∉ tok := by
  unfold strtok at h
  cases hs : s.dropWhile (fun c => [d].contains c) with
  | nil => rw [hs] at h; simp at h
  | cons c t =>
    rw [hs] at h
    simp only [Option.some.injEq] at h
    intro hm
    rw [← h] at hm
    have := List.mem_takeWhile_imp hm
    simp at this

theorem strtok_key_no_newline (line : Str) (key value : Str) (hline : NL ∉ line.dropLast)
    (hk : (strtok line ['=']).1 = some key)
    (hv : (strtok (strtok line ['=']).2 [NL]).1 = some value) : NL ∉ key := by
  unfold strtok at hk hv
  cases hs : line.dropWhile (fun c => ['='].contains c) with
  | nil => rw [hs] at hk; simp at hk
  | cons c t =>
    rw [hs] at hk hv
    simp only [Option.some.injEq] at hk
    simp only at hv
    have hsuf : (c :: t) <:+ line := hs ▸ List.dropWhile_suffix _
    have hshape := not_mem_dropLast_suffix line (c :: t) hsuf hline
    have hsplit := List.takeWhile_append_dropWhile (fun x => !(['='].contains x)) (c :: t)
    rw [hk] at hsplit
    cases hr : (c :: t).dropWhile (fun x => !(['='].contains x)) with
    | nil =>
      rw [hr] at hv
      simp at hv
    | cons a r =>
      rw [hr] at hsplit
      rw [← hsplit, List.dropLast_append_of_ne_nil _ (List.cons_ne_nil a r)] at hshape
      exact fun hm => hshape (List.mem_append_left _ hm)

theorem not_mem_strip (c : Char) (s : Str) (h : c ∉ s) : c ∉ strip_spaces s :=
  fun hm => h ((strip_spaces_segment s).subset hm)

theorem loop_call_shape (line : Str) (k v : Str) (hline : NL ∉ line.dropLast)
    (h : loop_call line = some (k, v)) :
    '=' ∉ k ∧ NL ∉ k ∧ k.head? ≠ some ' ' ∧ k.getLast? ≠ some ' ' ∧
    NL ∉ v ∧ v.head? ≠ some ' ' ∧ v.getLast? ≠ some ' ' := by
  unfold loop_call at h
  split_ifs at h
  cases hk : (strtok line ['=']).1 with
  | none => rw [hk] at h; simp at h
  | some key =>
    cases hv : (strtok (strtok line ['=']).2 [NL]).1 with
    | none => rw [hk, hv] at h; simp at h
    | some value =>
      rw [hk, hv] at h
      simp only [Option.some.injEq, Prod.mk.injEq] at h
      obtain ⟨rfl, rfl⟩ := h
      rw [trim_whitespace_eq_strip, trim_whitespace_eq_strip]
      exact ⟨not_mem_strip _ _ (strtok_token_no_delim line '=' key hk),
        not_mem_strip _ _ (strtok_key_no_newline line key value hline hk hv),
        strip_spaces_head key, strip_spaces_getLast key,
        not_mem_strip _ _ (strtok_token_no_delim _ NL value hv),
        strip_spaces_head value, strip_spaces_getLast value⟩

/-- C14. The `setenv` calls listed by `load_calls` are the ones that make up `load_env`;
in each of them the name contains no `=` and no newline and neither begins nor ends with
a space, and the value contains no newline and neither begins nor ends with a space. The
name can be empty: the file ` =V` leads to a call with the empty name. -/
theorem load_calls_shape (content : List Char) (env : Env) :
    load_env (some content) env
      = Except.ok ((load_calls content).foldl (fun e kv => setenv e kv.1 kv.2 true) env) ∧
    (∀ name value, (name, value) ∈ load_calls content →
      '=' ∉ name ∧ NL ∉ name ∧ name.head? ≠ some ' ' ∧ name.getLast? ≠ some ' ' ∧
      NL ∉ value ∧ value.head? ≠ some ' ' ∧ value.getLast? ≠ some ' ') ∧
    load_calls " =V\n".toList = [([], "V".toList)] := by
  refine ⟨by rw [load_env, load_file_eq_calls], ?_, by decide⟩
  intro name value hmem
  unfold load_calls at hmem
  obtain ⟨d, hd, hcall⟩ := List.mem_filterMap.mp hmem
  exact loop_call_shape (cstr d) name value
    (cstr_shape d (file_chunks_shape content d hd).2.2) hcall

/-- C14, an instance: the calls made for a file with spaces around keys and values, an
empty name and an empty value. -/
theorem load_calls_shape_witness :
    load_calls " A = x y \n =V\nB= \n".toList
      = [("A".toList, "x y".toList), ([], "V".toList), ("B".toList, [])] ∧
    ('=' ∉ "A".toList ∧ NL ∉ "A".toList ∧ "A".toList.head? ≠ some ' ' ∧
      "A".toList.getLast? ≠ some ' ' ∧ NL ∉ "x y".toList ∧
      "x y".toList.head? ≠ some ' ' ∧ "x y".toList.getLast? ≠ some ' ') :=
  ⟨by decide,
   (load_calls_shape " A = x y \n =V\nB= \n".toList emptyEnv).2.1 "A".toList "x y".toList
    (by decide)⟩

/-! ## Logical lines -/

theorem file_chunks_flatten_aux (f : Nat) :
    ∀ (file : List Char), file.length < f → (file_chunks file).flatten = file := by
  induction f with
  | zero => intro file h; omega
  | succ f ih =>
    intro file hlen
    cases file with
    | nil => rfl
    | cons c t =>
      have hr := fgets_read_rest_length c t
      rw [file_chunks_cons, List.flatten_cons,
        ih _ (by simp only [List.length_cons] at hlen hr; omega)]
      exact fgets_read_append 255 (c :: t)

theorem file_chunks_flatten (file : List Char) : (file_chunks file).flatten = file :=
  file_chunks_flatten_aux (file.length + 1) file (by omega)

theorem fgets_read_end (n : Nat) (l : List Char) :
    (fgets_read n l).1.getLast? = some NL ∨ (fgets_read n l).1.length = n ∨
      (fgets_read n l).2 = [] := by
  induction n generalizing l with
  | zero => right; left; simp [fgets_read]
  | succ n ih =>
    cases l with
    | nil => right; right; simp [fgets_read]
    | cons c t =>
      by_cases h : c = NL
      · left; simp [fgets_read, h]
      · simp only [fgets_read, h, if_false]
        rcases ih t with h1 | h1 | h1
        · left
          cases hr : (fgets_read n t).1 with
          | nil => rw [hr] at h1; simp at h1
          | cons a r => rw [hr] at h1; rw [List.getLast?_cons_cons]; exact h1
        · right; left; simp [h1]
        · right; right; exact h1

theorem file_chunks_end_aux (f : Nat) :
    ∀ (file : List Char), file.length < f →
      ∀ (before : List (List Char)) (d : List Char) (after : List (List Char)),
        file_chunks file = before ++ d :: after →
        d.getLast? = some NL ∨ d.length = 255 ∨ after = [] := by
  induction f with
  | zero => intro file h; omega
  | succ f ih =>
    intro file hlen before d after hsplit
    cases file with
    | nil => simp [file_chunks_nil] at hsplit
    | cons c t =>
      have hr := fgets_read_rest_length c t
      rw [file_chunks_cons] at hsplit
      cases before with
      | nil =>
        simp only [List.nil_append, List.cons.injEq] at hsplit
        obtain ⟨h1, h2⟩ := hsplit
        rcases fgets_read_end 255 (c :: t) with h | h | h
        · left; rw [← h1]; exact h
        · right; left; rw [← h1]; exact h
        · right; right; rw [← h2, h]; rfl
      | cons b before =>
        simp only [List.cons_append, List.cons.injEq] at hsplit
        exact ih _ (by simp only [List.length_cons] at hlen hr; omega) before d after hsplit.2

theorem file_chunks_end (file : List Char) (before : List (List Char)) (d : List Char)
    (after : List (List Char)) (h : file_chunks file = before ++ d :: after) :
    d.getLast? = some NL ∨ d.length = 255 ∨ after = [] :=
  file_chunks_end_aux (file.length + 1) file (by omega) before d after h

theorem file_chunks_long (body : List Char) (hb : NL ∉ body) (h : 255 ≤ body.length) :
    file_chunks (body ++ [NL]) = body.take 255 :: file_chunks (body.drop 255 ++ [NL]) := by
  have hsplit : body ++ [NL] = body.take 255 ++ (body.drop 255 ++ [NL]) := by
    rw [← List.append_assoc, List.take_append_drop]
  have hread : fgets_read 255 (body ++ [NL]) = (body.take 255, body.drop 255 ++ [NL]) := by
    rw [hsplit]
    apply fgets_read_full
    · exact fun hm => hb (List.mem_of_mem_take hm)
    · rw [List.length_take]; omega
  cases hc : body ++ [NL] with
  | nil => simp at hc
  | cons c t =>
    rw [file_chunks_cons, ← hc, hread]

theorem file_chunks_count_aux (f : Nat) :
    ∀ (body : List Char), body.length < f → NL ∉ body →
      (file_chunks (body ++ [NL])).length = body.length / 255 + 1 := by
  induction f with
  | zero => intro body h; omega
  | succ f ih =>
    intro body hlen hb
    rcases Nat.lt_or_ge body.length 255 with h | h
    · rw [file_chunks_line body hb (by omega)]
      simp only [List.length_singleton]
      have : body.length / 255 = 0 := Nat.div_eq_of_lt h
      omega
    · rw [file_chunks_long body hb h, List.length_cons,
        ih (body.drop 255) (by rw [List.length_drop]; omega)
          (fun hm => hb (List.mem_of_mem_drop hm)), List.length_drop]
      omega

theorem file_chunks_count (body : List Char) (hb : NL ∉ body) :
    (file_chunks (body ++ [NL])).length = body.length / 255 + 1 :=
  file_chunks_count_aux (body.length + 1) body (by omega) hb

theorem file_chunks_two (body : List Char) (hb : NL ∉ body) (h1 : 255 ≤ body.length)
    (h2 : body.length ≤ 509) :
    file_chunks (body ++ [NL]) = [body.take 255, body.drop 255 ++ [NL]] := by
  rw [file_chunks_long body hb h1,
    file_chunks_line (body.drop 255) (fun hm => hb (List.mem_of_mem_drop hm))
      (by rw [List.length_drop]; omega)]

/-- C13 (amended). `load_env` handles a file as the sequence of buffers `file_chunks`:
put together they are the file; each is non-empty, has at most 255 characters and ends
at a newline, at the 255-character limit or at the end of the file; each is handled by
the loop body as a line of its own. A physical line of `n` characters (newline not
counted) that starts at a line boundary is read as `n / 255 + 1` buffers: one when
`n < 255`, exactly two when `255 ≤ n ≤ 509` (its first 255 characters, then the rest
with the newline), three or more when `n ≥ 510`. -/
theorem logical_chunks (file : List Char) (env : Env) :
    (file_chunks file).flatten = file ∧
    (∀ d ∈ file_chunks file, d ≠ [] ∧ d.length ≤ 255) ∧
    (∀ before d after, file_chunks file = before ++ d :: after →
      d.getLast? = some NL ∨ d.length = 255 ∨ after = []) ∧
    load_env (some file) env
      = Except.ok ((file_chunks file).foldl (fun e buf => loop_body (cstr buf) e) env) ∧
    (∀ pre body post, LineBoundary pre → NL ∉ body → file = pre ++ (body ++ [NL]) ++ post →
      file_chunks file = file_chunks pre ++ file_chunks (body ++ [NL]) ++ file_chunks post ∧
      (file_chunks (body ++ [NL])).length = body.length / 255 + 1 ∧
      (255 ≤ body.length → body.length ≤ 509 →
        file_chunks (body ++ [NL]) = [body.take 255, body.drop 255 ++ [NL]]) ∧
      (510 ≤ body.length → 3 ≤ (file_chunks (body ++ [NL])).length)) := by
  refine ⟨file_chunks_flatten file, ?_, file_chunks_end file, ?_, ?_⟩
  · intro d hd
    have := file_chunks_shape file d hd
    exact ⟨this.1, this.2.1⟩
  · rw [load_env, load_file_eq_foldl]
  · intro pre body post hpre hb hfile
    refine ⟨?_, file_chunks_count body hb, file_chunks_two body hb, ?_⟩
    · rw [hfile, file_chunks_append (pre ++ (body ++ [NL])) post
        (lineBoundary_append pre _ (by simp)), file_chunks_append pre _ hpre]
    · intro h
      rw [file_chunks_count body hb]
      have : 2 ≤ body.length / 255 := (Nat.le_div_iff_mul_le (by decide)).mpr (by omega)
      omega

set_option maxRecDepth 100000 in
/-- C13, an instance: a line of 256 times `x` between the lines `A=1` and `B=2` is read
as two buffers, 255 times `x` and then `x` with the newline. -/
theorem logical_chunks_witness :
    file_chunks ("A=1\n".toList ++ (List.replicate 256 'x' ++ [NL]) ++ "B=2\n".toList)
      = file_chunks "A=1\n".toList ++ file_chunks (List.replicate 256 'x' ++ [NL])
          ++ file_chunks "B=2\n".toList ∧
    (file_chunks (List.replicate 256 'x' ++ [NL])).length = 256 / 255 + 1 :=
  ⟨((logical_chunks ("A=1\n".toList ++ (List.replicate 256 'x' ++ [NL]) ++ "B=2\n".toList)
      emptyEnv).2.2.2.2 "A=1\n".toList (List.replicate 256 'x') "B=2\n".toList
      (by decide) (by decide) rfl).1,
   ((logical_chunks ("A=1\n".toList ++ (List.replicate 256 'x' ++ [NL]) ++ "B=2\n".toList)
      emptyEnv).2.2.2.2 "A=1\n".toList (List.replicate 256 'x') "B=2\n".toList
      (by decide) (by decide) rfl).2.1⟩

set_option maxRecDepth 100000 in
/-- C13, where the claim fails. The file `long_line` is one physical line, 520 times `x`
and a newline, longer than 255 characters, and it is read as three buffers, not two. -/
theorem two_chunks_counterexample :
    NL ∉ long_line.dropLast ∧ long_line.getLast? = some NL ∧ 255 < long_line.length ∧
    file_chunks long_line
      = [List.replicate 255 'x', List.replicate 255 'x', List.replicate 10 'x' ++ [NL]] ∧
    (file_chunks long_line).length ≠ 2 := by
  decide

/-! ## The environment at the process replacement -/

theorem setenv_self (env : Env) (name value : Str) (ow : Bool) (h : env name = some value) :
    setenv env name value ow = env := by
  unfold setenv
  split_ifs
  · rfl
  · rfl
  · funext n
    by_cases hn : n = name
    · rw [if_pos hn, hn, h]
    · rw [if_neg hn]

/-- C12. When the required-variable check passes, `main` calls `execvp` in exactly the
environment that `load_env` produced: the inherited environment changed by the `setenv`
calls made for the file, in which every inherited variable is still set and ORIGIN_CERT
is set. Setting ORIGIN_CERT to its own value changes no variable. -/
theorem exec_environment (content : List Char) (execvp : ExecCall → Bool) (env0 : Env)
    (h : all_required_set (load_file content env0)) :
    ∃ call, (main (some content) execvp env0).call = some call ∧
      load_env (some content) env0 = Except.ok call.env ∧
      call.env = (load_calls content).foldl (fun e kv => setenv e kv.1 kv.2 true) env0 ∧
      (∀ n, (getenv env0 n).isSome = true → (getenv call.env n).isSome = true) ∧
      (getenv call.env "ORIGIN_CERT".toList).isSome = true ∧
      (∀ o, getenv (load_file content env0) "ORIGIN_CERT".toList = some o →
        setenv (load_file content env0) "ORIGIN_CERT".toList o true
          = load_file content env0) := by
  obtain ⟨h1, h2, h3, h4⟩ := h
  obtain ⟨o, ho⟩ := Option.isSome_iff_exists.mp h1
  obtain ⟨t, ht⟩ := Option.isSome_iff_exists.mp h2
  obtain ⟨c, hc⟩ := Option.isSome_iff_exists.mp h3
  obtain ⟨l, hl⟩ := Option.isSome_iff_exists.mp h4
  have hself : setenv (load_file content env0) "ORIGIN_CERT".toList o true
      = load_file content env0 := setenv_self _ _ _ _ ho
  have hcall : ∃ call, (main (some content) execvp env0).call = some call ∧
      call.env = load_file content env0 := by
    rw [main_eq_launch, launch_of_set execvp _ o t c l ho ht hc hl]
    split_ifs
    · exact ⟨_, rfl, hself⟩
    · exact ⟨_, rfl, hself⟩
  obtain ⟨call, hc1, hc2⟩ := hcall
  refine ⟨call, hc1, ?_, ?_, ?_, ?_, ?_⟩
  · rw [hc2]; rfl
  · rw [hc2]; exact load_file_eq_calls content env0
  · intro n hn
    rw [hc2]
    unfold getenv at hn ⊢
    rw [load_file_eq_foldl]
    exact foldl_loop_body_isSome _ _ _ hn
  · rw [hc2]; exact h1
  · intro o' ho'
    exact setenv_self _ _ _ _ ho'

/-- C12, an instance: with the file `example_dotenv` and the inherited variable `HOME`,
`execvp` is called in the environment `load_env` produced. -/
theorem exec_environment_witness :
    ∃ call, (main (some example_dotenv) (fun _ => true)
        (singleEnv "HOME".toList "/root".toList)).call = some call ∧
      load_env (some example_dotenv) (singleEnv "HOME".toList "/root".toList)
        = Except.ok call.env :=
  (exec_environment example_dotenv (fun _ => true) (singleEnv "HOME".toList "/root".toList)
    (by decide)).imp (fun _ hc => ⟨hc.1, hc.2.1⟩)

/-! ## Values of spaces only -/

theorem strip_spaces_replicate (n : Nat) : strip_spaces (List.replicate n ' ') = [] := by
  unfold strip_spaces
  have : (List.replicate n ' ').dropWhile (fun c => decide (c = ' ')) = [] := by
    rw [List.dropWhile_eq_nil_iff]
    intro c hc
    simp [List.eq_of_mem_replicate hc]
  rw [this]
  rfl

/-- C11 (amended). `trim_whitespace` turns a string of one or more spaces into the empty
string. Let K be a C string (no NUL) without `=` and newline, not beginning with `#` and
not made of spaces only (nor empty), and let the line `K=` with `n ≥ 1` spaces after it
be at most 255 characters long, its newline not counted. Then, for every initial
environment, after `load_env` has read a file whose last line is that line, the trimmed
K is set to the empty string, and its lookup reports it as set. -/
theorem blank_value_sets_empty (n : Nat) (hn : 0 < n) :
    trim_whitespace (List.replicate n ' ') = [] ∧
    ∀ (env : Env) (pre key : List Char), LineBoundary pre →
      '=' ∉ key → NL ∉ key → NUL ∉ key → key.head? ≠ some '#' →
      trim_whitespace key ≠ [] → key.length + n + 1 ≤ 255 →
      ∃ env', load_env (some (pre ++ entry_line key (List.replicate n ' '))) env
          = Except.ok env' ∧
        getenv env' (trim_whitespace key) = some [] ∧
        (getenv env' (trim_whitespace key)).isSome = true := by
  have htrim : trim_whitespace (List.replicate n ' ') = [] := by
    rw [trim_whitespace_eq_strip, strip_spaces_replicate]
  refine ⟨htrim, ?_⟩
  intro env pre key hpre hk1 hk2 hk3 hk4 hk5 hlen
  have hval : load_file (pre ++ entry_line key (List.replicate n ' ')) env
      (trim_whitespace key) = some [] := by
    unfold entry_line
    rw [load_file_append pre _ env hpre,
      load_file_entry_line _ key (List.replicate n ' ') hk1 hk2 hk3 hk4 hk5
        (fun h => absurd (List.eq_of_mem_replicate h) (by decide))
        (fun h => absurd (List.eq_of_mem_replicate h) (by decide))
        (by
          intro h
          have := congrArg List.length h
          simp at this
          omega)
        (by rw [List.length_replicate]; exact hlen), htrim]
  refine ⟨_, rfl, hval, ?_⟩
  unfold getenv
  rw [hval]
  rfl

/-- C11, instances: the line `CONFIG=` followed by two spaces sets CONFIG to the empty
string, and after the file `blank_values_dotenv` all four required variables count as
set. -/
theorem blank_value_sets_empty_witness :
    (∃ env', load_env (some ("# c\n".toList ++
          entry_line "CONFIG".toList (List.replicate 2 ' '))) emptyEnv = Except.ok env' ∧
        getenv env' "CONFIG".toList = some [] ∧
        (getenv env' "CONFIG".toList).isSome = true) ∧
    all_required_set (load_file blank_values_dotenv emptyEnv) :=
  ⟨(blank_value_sets_empty 2 (by decide)).2 emptyEnv "# c\n".toList "CONFIG".toList
      (by decide) (by decide) (by decide) (by decide) (by decide) (by decide) (by decide),
   by decide⟩

set_option maxRecDepth 100000 in
/-- C11, where the claim fails. In each case the file is the line `K=`, one space and a
newline, and afterwards the lookup of K reports it as absent: K beginning with `#`
makes a comment line; for an empty K, and for a K of one space, no name is left to set;
for K = ` A ` the variable that is set is `A`; a K of 255 characters makes the line
longer than the buffer. -/
theorem blank_value_counterexample :
    getenv (load_file (entry_line "#K".toList " ".toList) emptyEnv) "#K".toList = none ∧
    getenv (load_file (entry_line [] " ".toList) emptyEnv) [] = none ∧
    getenv (load_file (entry_line " ".toList " ".toList) emptyEnv) " ".toList = none ∧
    (getenv (load_file (entry_line " A ".toList " ".toList) emptyEnv) " A ".toList = none ∧
      getenv (load_file (entry_line " A ".toList " ".toList) emptyEnv) "A".toList
        = some []) ∧
    getenv (load_file (entry_line long_key " ".toList) emptyEnv) long_key = none := by
  decide

end StartTunnel
